import Mathlib

/-!
# Verification of the RMT (Recurrent Memory Transformer) encoder wrapper

Shallow embedding of `modeling_rmt.py` (`RMTEncoderForSequenceClassification`):
the segmentation routine `pad_and_segment`, and the recurrent forward pass
`__call__`, with the underlying transformer modelled as an abstract function
(word-embedding lookup, and a forward pass returning final hidden states and
a loss).

Token sequences are `List Nat`; hidden-state vectors are an abstract type `V`
(the word-embedding lookup `wordEmb : Nat → V` and the model are parameters);
losses are integer-valued scalars.
-/

namespace RMT

/-- Parameters installed by `set_params` (lines 24-52 of `modeling_rmt.py`);
`vocab_size` is the original embedding-table size seen by
`extend_word_embeddings` (line 62). -/
structure RMTConfig where
  input_size : Nat
  input_seg_size : Option Nat := none
  num_mem_tokens : Nat := 0
  bptt_depth : Int := -1
  pad_token_id : Nat := 0
  cls_token_id : Nat := 101
  sep_token_id : Nat := 102
  drop_empty_segments : Bool := true
  sum_loss : Bool := false
  vocab_size : Nat := 200
deriving Repr, DecidableEq

/-- `self.mem_token_ids = torch.arange(vocab_size, vocab_size + num_mem_tokens)`
(line 64). -/
def memTokenIds (cfg : RMTConfig) : List Nat :=
  List.range' cfg.vocab_size cfg.num_mem_tokens

/-- The content-window capacity of a segment:
`input_seg_size = input_size - num_mem_tokens - 3`, lowered to the configured
`input_seg_size` when that is smaller (lines 116-118). -/
def effectiveK (cfg : RMTConfig) : Nat :=
  let base := cfg.input_size - cfg.num_mem_tokens - 3
  match cfg.input_seg_size with
  | some v => if v < base then v else base
  | none => base

/-- `math.ceil(n / K)` for naturals (line 120). -/
def ceilDiv (n K : Nat) : Nat := (n + K - 1) / K

/-- `input = input[input != self.pad_token_id][1:-1]` (line 124): delete every
element equal to the pad id anywhere in the row, then drop the first and the
last of what remains. -/
def strippedRow (cfg : RMTConfig) (row : List Nat) : List Nat :=
  ((row.filter (fun t => t ≠ cfg.pad_token_id)).drop 1).dropLast

/-- Fuel-bounded worker for `descRangeP`; the fuel only serves structural
recursion and is irrelevant as soon as it is at least the start value. -/
def descRangeAux (k : Nat) : Nat → Nat → List Nat
  | _, 0 => []
  | 0, _+1 => []
  | (f+1), (m+1) => (m+1) :: descRangeAux k f (m - k)

/-- `range(L, 0, -(k+1))`: the descending enumeration `L, L-(k+1), L-2(k+1), …`
of positive values; the step is `k+1` so that it is always positive (line 126
uses step `-input_seg_size`, and the routine requires a positive window). -/
def descRangeP (k L : Nat) : List Nat := descRangeAux k L L

/-- `seg_sep_inds = [0] + list(range(len(input), 0, -input_seg_size))[::-1]`
(line 126), with window `k+1`. -/
def segSepInds (k L : Nat) : List Nat := 0 :: (descRangeP k L).reverse

/-- `[input[s:e] for s, e in zip(seg_sep_inds, seg_sep_inds[1:])]` (line 127). -/
def pairChunks (content : List Nat) (inds : List Nat) : List (List Nat) :=
  (inds.zip inds.tail).map (fun p => (content.drop p.1).take (p.2 - p.1))

/-- The content chunks of one row, for window `K = k+1` (lines 126-127). -/
def segmentChunks (k : Nat) (content : List Nat) : List (List Nat) :=
  pairChunks content (segSepInds k content.length)

/-- `pad_add_special_tokens` (lines 129-138): wrap a chunk as
`[cls, mem…, sep, chunk…, sep]` and right-pad with the pad id up to
`input_size` (no truncation when already longer). -/
def padAddSpecialTokens (cfg : RMTConfig) (t : List Nat) : List Nat :=
  let base := cfg.cls_token_id ::
    (memTokenIds cfg ++ cfg.sep_token_id :: (t ++ [cfg.sep_token_id]))
  base ++ List.replicate (cfg.input_size - base.length) cfg.pad_token_id

/-- `self.empty`: the canonical fully-padded segment (lines 141-142). -/
def emptySeg (cfg : RMTConfig) : List Nat := padAddSpecialTokens cfg []

/-- One row's segment list: wrapped content chunks, left-padded with copies of
the empty sentinel up to `n` segments (lines 140-144). -/
def segmentsOfRow (cfg : RMTConfig) (n : Nat) (row : List Nat) : List (List Nat) :=
  let chunks := segmentChunks (effectiveK cfg - 1) (strippedRow cfg row)
  let wrapped := chunks.map (padAddSpecialTokens cfg)
  List.replicate (n - wrapped.length) (emptySeg cfg) ++ wrapped

/-- `n_segments = math.ceil(sequence_len / input_seg_size)` where
`sequence_len = input_ids.shape[1]` is the raw width of the (padded) batch
tensor (lines 115, 120). -/
def nSegments (cfg : RMTConfig) (input_ids : List (List Nat)) : Nat :=
  ceilDiv (input_ids.headD []).length (effectiveK cfg)

/-- `augmented_input = torch.cat(input_segments)` for one row (line 146). -/
def augmentedRow (cfg : RMTConfig) (n : Nat) (row : List Nat) : List Nat :=
  (segmentsOfRow cfg n row).flatten

/-- `pad_and_segment` (lines 113-159): returns, per segment index, the batch of
input-id windows, the attention masks (`0` exactly at pad positions, line 151)
and the all-zero token-type ids, each obtained by chunking the concatenated
per-row tensors into `n_segments` width-`input_size` windows (lines 155-157). -/
def padAndSegment (cfg : RMTConfig) (input_ids : List (List Nat)) :
    List (List (List Nat)) × List (List (List Nat)) × List (List (List Nat)) :=
  let n := nSegments cfg input_ids
  let chunkAt (l : List Nat) (s : Nat) := (l.drop (s * cfg.input_size)).take cfg.input_size
  let segs := (List.range n).map (fun s =>
    input_ids.map (fun r => chunkAt (augmentedRow cfg n r) s))
  let attns := (List.range n).map (fun s =>
    input_ids.map (fun r =>
      chunkAt ((augmentedRow cfg n r).map (fun t => if t = cfg.pad_token_id then 0 else 1)) s))
  let tts := (List.range n).map (fun s =>
    input_ids.map (fun r => chunkAt ((augmentedRow cfg n r).map (fun _ => 0)) s))
  (segs, attns, tts)

/-- Recover a segment's content window: drop the trailing padding, then the
final separator, then the `[cls, mem…, sep]` prefix of length
`num_mem_tokens + 2`.  This is the reading of a segment used to state the
reconstruction properties. -/
def extractContent (cfg : RMTConfig) (seg : List Nat) : List Nat :=
  (((seg.reverse.dropWhile (fun x => x = cfg.pad_token_id)).reverse).dropLast).drop
    (cfg.num_mem_tokens + 2)

/-! ## The recurrent forward pass (`__call__`, lines 68-111)

The wrapped transformer is abstract: a word-embedding lookup `wordEmb` and a
forward function `model` receiving the substituted input embeddings, the
attention mask, the token-type ids and the (optional) labels, and returning
the final hidden-state layer (batch × positions) together with a scalar loss.
Memory is a per-example list of `num_mem_tokens` hidden vectors.  Besides the
outputs, the embedding records a `StepEvent` per segment index (executed or
skipped) so that the loop's decisions are stated precisely.  Python
exceptions (`KeyError` on a missing `labels` entry, the boolean-mask length
mismatch, and the `NameError` on `out` when no step ran) are `Except.error`. -/

/-- The final hidden-state layer (`out.hidden_states[-1]`) and the loss of one
model invocation. -/
structure ModelOutput (V : Type) where
  hidden : List (List V)
  loss : Int
deriving Repr, DecidableEq

/-- The external model's forward pass: `inputs_embeds`, `attention_mask`,
`token_type_ids`, `labels` (as passed in `seg_kwargs`). -/
def ModelFn (V : Type) : Type :=
  List (List V) → List (List Nat) → List (List Nat) → Option (List Int) → ModelOutput V

/-- Ghost record of what the loop body did at one segment index. -/
structure StepEvent (V : Type) where
  segNum : Nat
  detached : Bool
  memEntering : List (List V)
  mask : List Bool
  modelOut : Option (ModelOutput V)
  labelsPassed : Option (Option (List Int))
deriving Repr, DecidableEq

/-- Boolean-mask selection `xs[mask]` (torch semantics for equal lengths). -/
def applyMask {α : Type} (mask : List Bool) (xs : List α) : List α :=
  ((mask.zip xs).filter (fun p => p.1)).map (fun p => p.2)

/-- Position of example `e` inside the mask-filtered batch. -/
def maskRank (mask : List Bool) (e : Nat) : Nat := (mask.take e).count true

/-- `olds[mask] = news`: scatter the filtered rows back into the masked
positions (line 105). -/
def scatterUpdate {α : Type} : List Bool → List α → List α → List α
  | [], olds, _ => olds
  | _ :: _, [], _ => []
  | true :: ms, _ :: os, n :: ns => n :: scatterUpdate ms os ns
  | true :: ms, o :: os, [] => o :: scatterUpdate ms os []
  | false :: ms, o :: os, ns => o :: scatterUpdate ms os ns

/-- `inputs_embeds[:, 1:1+M] = memory` for one example (lines 92, 95). -/
def injectMemory {V : Type} (M : Nat) (emb : List V) (mem : List V) : List V :=
  emb.take 1 ++ mem ++ emb.drop (1 + M)

/-- One iteration of the segment loop (lines 73-107): returns the memory for
the next step, the appended output if the step executed, and the step event. -/
def stepRMT {V : Type} (cfg : RMTConfig) (model : ModelFn V) (wordEmb : Nat → V)
    (labels : Option (List Int)) (segNum : Nat) (memory : List (List V))
    (ids attn tt : List (List Nat)) :
    Except String (List (List V) × Option (ModelOutput V) × StepEvent V) :=
  -- line 77: `len(segmented)` is the length of the 3-tuple returned by
  -- `pad_and_segment`, i.e. the constant 3, not the number of segments.
  let detached := decide (cfg.bptt_depth > -1) &&
    decide ((3 : Int) - (segNum : Int) > cfg.bptt_depth)
  if cfg.drop_empty_segments then
    let mask := ids.map (fun row => !(decide (row = emptySeg cfg)))
    if mask.count true = 0 then
      .ok (memory, none, ⟨segNum, detached, memory, mask, none, none⟩)
    else
      match labels with
      | none => .error "KeyError: labels"
      | some l =>
        if l.length = ids.length then
          let lf := applyMask mask l
          let embs0 := (applyMask mask ids).map (fun r => r.map wordEmb)
          let embs := List.zipWith (injectMemory cfg.num_mem_tokens) embs0
            (applyMask mask memory)
          let out := model embs (applyMask mask attn) (applyMask mask tt) (some lf)
          let newMem := scatterUpdate mask memory
            (out.hidden.map (fun h => h.take cfg.num_mem_tokens))
          .ok (newMem, some out, ⟨segNum, detached, memory, mask, some out, some (some lf)⟩)
        else .error "IndexError: labels mask length mismatch"
  else
    let embs0 := ids.map (fun r => r.map wordEmb)
    let embs := List.zipWith (injectMemory cfg.num_mem_tokens) embs0 memory
    let out := model embs attn tt labels
    .ok (out.hidden.map (fun h => h.take cfg.num_mem_tokens), some out,
      ⟨segNum, detached, memory, List.replicate ids.length true, some out, some labels⟩)

/-- The memory leaving a step, expressed from the step's event: unchanged on
a skip; on an executed step, the first `num_mem_tokens` hidden rows scattered
into the non-empty examples' slots (line 105) or, without empty-dropping,
taken wholesale (line 107). -/
def nextMem {V : Type} (cfg : RMTConfig) (t : StepEvent V) : List (List V) :=
  match t.modelOut with
  | none => t.memEntering
  | some out =>
    if cfg.drop_empty_segments then
      scatterUpdate t.mask t.memEntering
        (out.hidden.map (fun h => h.take cfg.num_mem_tokens))
    else out.hidden.map (fun h => h.take cfg.num_mem_tokens)

/-- The segment loop, accumulating outputs and events; an error in a step
(a raised Python exception) propagates. -/
def rmtLoop {V : Type} (cfg : RMTConfig) (model : ModelFn V) (wordEmb : Nat → V)
    (labels : Option (List Int)) :
    List (List (List Nat) × List (List Nat) × List (List Nat)) → Nat →
      List (List V) →
      Except String (List (ModelOutput V) × List (StepEvent V) × List (List V))
  | [], _, memory => .ok ([], [], memory)
  | (ids, attn, tt) :: rest, segNum, memory =>
    (stepRMT cfg model wordEmb labels segNum memory ids attn tt).bind (fun st =>
      (rmtLoop cfg model wordEmb labels rest (segNum + 1) st.1).bind (fun r =>
        .ok ((match st.2.1 with | some o => o :: r.1 | none => r.1),
          st.2.2 :: r.2.1, r.2.2)))

/-- `zip(*segmented)` over the triple of per-segment lists. -/
def zipSeg : List (List (List Nat)) → List (List (List Nat)) →
    List (List (List Nat)) →
    List (List (List Nat) × List (List Nat) × List (List Nat))
  | a :: as, b :: bs, c :: cs => (a, b, c) :: zipSeg as bs cs
  | _, _, _ => []

/-- `__call__` (lines 68-111).  Memory starts as the embedding lookup of the
reserved memory-token ids (`set_memory`, lines 55-59, called with no saved
memory at every call) broadcast to the batch (line 76); then the loop runs;
then, under `sum_loss`, `out['loss']` — the loss of the LAST executed output,
which `outputs` also holds as its last element — is overwritten with the sum
of all executed losses (lines 109-110); with no executed output, `out` is
unbound and the line raises. -/
def rmtCall {V : Type} (cfg : RMTConfig) (model : ModelFn V) (wordEmb : Nat → V)
    (input_ids : List (List Nat)) (labels : Option (List Int)) :
    Except String (List (ModelOutput V) × List (StepEvent V)) :=
  let memory0 := List.replicate input_ids.length ((memTokenIds cfg).map wordEmb)
  let p := padAndSegment cfg input_ids
  (rmtLoop cfg model wordEmb labels (zipSeg p.1 p.2.1 p.2.2) 0 memory0).bind
    (fun r =>
      if cfg.sum_loss then
        match r.1.getLast? with
        | none => .error "NameError: out"
        | some lastOut =>
          .ok (r.1.dropLast ++
            [{ lastOut with loss := (r.1.map (fun o => o.loss)).sum }], r.2.1)
      else .ok (r.1, r.2.1))

/-! ## Concrete instances used for counterexamples and witnesses -/

/-- `input_size = 10`, `M = 2`, so `K = 5`; mem ids are `[200, 201]`. -/
def cfgSeg : RMTConfig := { input_size := 10, num_mem_tokens := 2, vocab_size := 200 }

/-- A concrete scalar "hidden vector" type: each position's hidden state is an
integer. -/
def embTok : Nat → Int := fun t => (t : Int)

/-- A concrete model: echoes its input embeddings as final hidden states and
reports as loss the value at position `M + 2 = 4` of the first example (the
first content token of the segment). -/
def modelEcho : ModelFn Int := fun embs _ _ _ =>
  { hidden := embs, loss := ((embs.headD []).getD 4 0) }

/-- Width-16 batch: one row, stripped content of 14 tokens, `K = 5`, so the
code produces `⌈16/5⌉ = 4` segments. -/
def rowsBptt : List (List Nat) :=
  [[101, 1, 2, 3, 4, 5, 6, 7, 8, 9, 10, 11, 12, 13, 14, 102]]

/-- The configuration for the BPTT counterexample: `bptt_depth = 2`. -/
def cfgBptt : RMTConfig :=
  { input_size := 10, num_mem_tokens := 2, vocab_size := 200,
    drop_empty_segments := false, bptt_depth := 2 }

/-- Width-15 batch: one row whose stripped 13 content tokens chunk (with
`K = 5`) into `[1,9,9]`, `[2,9,9,9,9]`, `[3,9,9,9,9]`, so `modelEcho` reports
per-segment losses `1`, `2`, `3`. -/
def rowsLoss : List (List Nat) :=
  [[101, 1, 9, 9, 2, 9, 9, 9, 9, 3, 9, 9, 9, 9, 102]]

/-- The configuration for the sum-loss run: `sum_loss = true`. -/
def cfgLoss : RMTConfig :=
  { input_size := 10, num_mem_tokens := 2, vocab_size := 200,
    drop_empty_segments := false, sum_loss := true }

/-- The same configuration with the aggregation disabled. -/
def cfgLossOff : RMTConfig :=
  { input_size := 10, num_mem_tokens := 2, vocab_size := 200,
    drop_empty_segments := false, sum_loss := false }

/-- A drop-empty configuration (`drop_empty_segments = true`). -/
def cfgDrop : RMTConfig := { input_size := 10, num_mem_tokens := 2, vocab_size := 200 }

/-- A width-5 all-pad row: it strips to nothing, so its single segment is the
empty sentinel. -/
def rowsAllPad : List (List Nat) := [[0, 0, 0, 0, 0]]

/-- A two-example batch of width 12: the first row has content, the second is
all padding, so at segment steps where the second example is the sentinel its
memory must stay put. -/
def rowsMixed : List (List Nat) :=
  [[101, 1, 2, 3, 4, 5, 6, 7, 8, 9, 10, 102], [0, 0, 0, 0, 0, 0, 0, 0, 0, 0, 0, 0]]

/-! ## Chunking from the end: an equivalent recursive description

`seg_sep_inds` walks backward from the end of the content in steps of the
window size, so the produced chunks are: a last window of `k+1` tokens, and
recursively the chunks of what precedes it.  `revChunk` is that recursion;
`segmentChunks_eq_revChunk` proves the index-based code equal to it, and the
reconstruction / length properties are proved on `revChunk`. -/

/-- Chunk a list from its end in windows of `k+1` elements (the first chunk
keeps the remainder). -/
def revChunk (k : Nat) (l : List Nat) : List (List Nat) :=
  if h : l = [] then []
  else revChunk k (l.take (l.length - (k+1))) ++ [l.drop (l.length - (k+1))]
termination_by l.length
decreasing_by
  simp only [List.length_take]
  have hl : 0 < l.length := List.length_pos.mpr h
  omega

theorem revChunk_nil (k : Nat) : revChunk k [] = [] := by
  rw [revChunk]; simp

theorem revChunk_cons (k : Nat) (l : List Nat) (h : l ≠ []) :
    revChunk k l =
      revChunk k (l.take (l.length - (k+1))) ++ [l.drop (l.length - (k+1))] := by
  rw [revChunk]; simp [h]

/-- Concatenating the chunks gives back the list. -/
theorem revChunk_flatten (k : Nat) (l : List Nat) : (revChunk k l).flatten = l := by
  have H : ∀ (n : Nat) (l : List Nat), l.length = n → (revChunk k l).flatten = l := by
    intro n
    induction n using Nat.strong_induction_on with
    | _ n ih =>
      intro l hn
      by_cases h : l = []
      · subst h; simp [revChunk_nil]
      · rw [revChunk_cons k l h]
        have hl : 0 < l.length := List.length_pos.mpr h
        have htake : (l.take (l.length - (k+1))).length = l.length - (k+1) := by
          rw [List.length_take]; omega
        rw [List.flatten_append]
        rw [ih (l.length - (k+1)) (by omega) _ htake]
        simp [List.take_append_drop]
  exact H l.length l rfl

/-- Every chunk is nonempty and at most `k+1` long. -/
theorem revChunk_chunk_bounds (k : Nat) (l : List Nat) :
    ∀ c ∈ revChunk k l, c ≠ [] ∧ c.length ≤ k + 1 := by
  have H : ∀ (n : Nat) (l : List Nat), l.length = n →
      ∀ c ∈ revChunk k l, c ≠ [] ∧ c.length ≤ k + 1 := by
    intro n
    induction n using Nat.strong_induction_on with
    | _ n ih =>
      intro l hn c hc
      by_cases h : l = []
      · subst h; simp [revChunk_nil] at hc
      · rw [revChunk_cons k l h] at hc
        have hl : 0 < l.length := List.length_pos.mpr h
        have htake : (l.take (l.length - (k+1))).length = l.length - (k+1) := by
          rw [List.length_take]; omega
        rcases List.mem_append.mp hc with h1 | h2
        · exact ih (l.length - (k+1)) (by omega) _ htake c h1
        · have : c = l.drop (l.length - (k+1)) := by simpa using h2
          subst this
          constructor
          · intro hnil
            have := congrArg List.length hnil
            simp [List.length_drop] at this
            omega
          · rw [List.length_drop]; omega
  exact H l.length l rfl

/-- The number of chunks is `⌈length / (k+1)⌉`. -/
theorem revChunk_count (k : Nat) (l : List Nat) :
    (revChunk k l).length = ceilDiv l.length (k+1) := by
  have hceil : ∀ L : Nat, 0 < L → ceilDiv L (k+1) = (L - 1) / (k+1) + 1 := by
    intro L hL
    unfold ceilDiv
    have : L + (k+1) - 1 = (L - 1) + (k+1) := by omega
    rw [this, Nat.add_div_right _ (Nat.succ_pos k)]
  have H : ∀ (n : Nat) (l : List Nat), l.length = n →
      (revChunk k l).length = ceilDiv l.length (k+1) := by
    intro n
    induction n using Nat.strong_induction_on with
    | _ n ih =>
      intro l hn
      by_cases h : l = []
      · subst h
        simp [revChunk_nil, ceilDiv]
        exact (Nat.div_eq_of_lt (by omega)).symm
      · rw [revChunk_cons k l h]
        have hl : 0 < l.length := List.length_pos.mpr h
        have htake : (l.take (l.length - (k+1))).length = l.length - (k+1) := by
          rw [List.length_take]; omega
        rw [List.length_append, ih (l.length - (k+1)) (by omega) _ htake, htake]
        simp only [List.length_singleton]
        rw [hceil _ hl]
        by_cases hk : l.length ≤ k + 1
        · have h0 : l.length - (k+1) = 0 := by omega
          rw [h0]
          simp [ceilDiv]
          rw [Nat.div_eq_of_lt (show k < k + 1 by omega),
            Nat.div_eq_of_lt (show l.length - 1 < k + 1 by omega)]
        · have h1 : 0 < l.length - (k+1) := by omega
          rw [hceil _ h1]
          have h2 : l.length - 1 = (l.length - (k+1) - 1) + (k+1) := by omega
          rw [h2, Nat.add_div_right _ (Nat.succ_pos k)]
  exact H l.length l rfl

/-- Structure of a nonempty chunking: the first chunk has `(L-1) % (k+1) + 1`
elements (i.e. the remainder), and every later chunk has exactly `k+1`. -/
theorem revChunk_struct (k : Nat) (l : List Nat) (h : l ≠ []) :
    ∃ c cs, revChunk k l = c :: cs ∧ c.length = (l.length - 1) % (k+1) + 1 ∧
      ∀ d ∈ cs, d.length = k + 1 := by
  have H : ∀ (n : Nat) (l : List Nat), l.length = n → l ≠ [] →
      ∃ c cs, revChunk k l = c :: cs ∧ c.length = (l.length - 1) % (k+1) + 1 ∧
        ∀ d ∈ cs, d.length = k + 1 := by
    intro n
    induction n using Nat.strong_induction_on with
    | _ n ih =>
      intro l hn h
      have hl : 0 < l.length := List.length_pos.mpr h
      rw [revChunk_cons k l h]
      by_cases hk : l.length ≤ k + 1
      · have h0 : l.length - (k+1) = 0 := by omega
        rw [h0]
        refine ⟨l, [], by simp [revChunk_nil], ?_, by simp⟩
        rw [Nat.mod_eq_of_lt (by omega)]
        omega
      · have h1 : 0 < l.length - (k+1) := by omega
        have htake : (l.take (l.length - (k+1))).length = l.length - (k+1) := by
          rw [List.length_take]; omega
        have hne : l.take (l.length - (k+1)) ≠ [] := by
          intro hnil
          rw [hnil] at htake
          simp at htake
          omega
        obtain ⟨c, cs, heq, hclen, hcs⟩ :=
          ih (l.length - (k+1)) (by omega) _ htake hne
        refine ⟨c, cs ++ [l.drop (l.length - (k+1))], by rw [heq]; simp, ?_, ?_⟩
        · rw [hclen, htake]
          have h2 : l.length - 1 = (l.length - (k+1) - 1) + (k+1) := by omega
          rw [h2, Nat.add_mod_right]
        · intro d hd
          rcases List.mem_append.mp hd with hda | hdb
          · exact hcs d hda
          · have : d = l.drop (l.length - (k+1)) := by simpa using hdb
            subst this
            rw [List.length_drop]; omega
  exact H l.length l rfl h

/-- The fuel is irrelevant once sufficient. -/
theorem descRangeAux_fuel (k : Nat) :
    ∀ (f L : Nat), L ≤ f → descRangeAux k f L = descRangeAux k L L := by
  intro f
  induction f using Nat.strong_induction_on with
  | _ f ih =>
    intro L hL
    match f, L with
    | 0, 0 => rfl
    | (f'+1), 0 => rfl
    | 0, (m+1) => omega
    | (f'+1), (m+1) =>
      show (m+1) :: descRangeAux k f' (m - k) = (m+1) :: descRangeAux k m (m - k)
      congr 1
      rw [ih f' (by omega) (m - k) (by omega), ih m (by omega) (m - k) (by omega)]

theorem descRangeP_succ (k m : Nat) :
    descRangeP k (m+1) = (m+1) :: descRangeP k (m - k) := by
  show descRangeAux k (m+1) (m+1) = (m+1) :: descRangeP k (m - k)
  show (m+1) :: descRangeAux k m (m - k) = (m+1) :: descRangeP k (m - k)
  congr 1
  exact descRangeAux_fuel k m (m - k) (by omega)

/-- Elements of `range(L, 0, -(k+1))` lie in `[1, L]`. -/
theorem descRangeP_mem (k : Nat) :
    ∀ (L : Nat), ∀ x ∈ descRangeP k L, 1 ≤ x ∧ x ≤ L := by
  intro L
  induction L using Nat.strong_induction_on with
  | _ L ih =>
    intro x hx
    match L with
    | 0 => simp [descRangeP, descRangeAux] at hx
    | (m+1) =>
      rw [descRangeP_succ] at hx
      rcases List.mem_cons.mp hx with h1 | h2
      · omega
      · have := ih (m - k) (by omega) x h2
        omega

/-- Adjacent-pair zipping over a list extended by one element on the right. -/
theorem zip_tail_concat (xs : List Nat) (y : Nat) (h : xs ≠ []) :
    (xs ++ [y]).zip (xs ++ [y]).tail =
      xs.zip xs.tail ++ [(xs.getLastD 0, y)] := by
  induction xs with
  | nil => exact absurd rfl h
  | cons a t ih =>
    match t with
    | [] => simp
    | b :: t' =>
      have ht : (b :: t') ≠ [] := by simp
      have := ih ht
      simp only [List.cons_append, List.tail_cons, List.zip_cons_cons] at this ⊢
      rw [this]
      simp [List.getLastD]

/-- The last separator index is `m` (the content length), also when `m = 0`. -/
theorem segInds_getLastD (k m : Nat) :
    (0 :: (descRangeP k m).reverse).getLastD 0 = m := by
  match m with
  | 0 => simp [descRangeP, descRangeAux, List.getLastD]
  | (m'+1) =>
    rw [descRangeP_succ]
    rw [show (0 :: ((m'+1) :: descRangeP k (m' - k)).reverse)
        = (0 :: (descRangeP k (m' - k)).reverse) ++ [m'+1] by simp]
    exact List.getLastD_concat _ _ _

/-- Slicing below a cut point `T` ignores everything past `T`. -/
theorem pairChunks_take (content : List Nat) (inds : List Nat) (T : Nat)
    (hT : ∀ x ∈ inds, x ≤ T) :
    pairChunks (content.take T) inds = pairChunks content inds := by
  unfold pairChunks
  apply List.map_congr_left
  intro p hp
  obtain ⟨hp1, hp2⟩ := List.of_mem_zip hp
  have h1 : p.1 ≤ T := hT p.1 hp1
  have h2 : p.2 ≤ T := hT p.2 (List.mem_of_mem_tail hp2)
  rw [List.drop_take]
  rw [List.take_take]
  congr 1
  omega

/-- The index-walking chunker of lines 126-127 equals the end-aligned
recursive chunker. -/
theorem segmentChunks_eq_revChunk (k : Nat) (content : List Nat) :
    segmentChunks k content = revChunk k content := by
  have H : ∀ (n : Nat) (c : List Nat), c.length = n →
      segmentChunks k c = revChunk k c := by
    intro n
    induction n using Nat.strong_induction_on with
    | _ n ih =>
      intro c hn
      by_cases hne : c = []
      · subst hne
        simp [segmentChunks, segSepInds, pairChunks, descRangeP, descRangeAux, revChunk_nil]
      · obtain ⟨m, hL⟩ : ∃ m, c.length = m + 1 :=
          ⟨c.length - 1, by have := List.length_pos.mpr hne; omega⟩
        -- unfold one step of the index list
        have hinds : segSepInds k c.length =
            (0 :: (descRangeP k (m - k)).reverse) ++ [m+1] := by
          rw [segSepInds, hL, descRangeP_succ]
          simp
        have hlast : (0 :: (descRangeP k (m - k)).reverse).getLastD 0 = m - k :=
          segInds_getLastD k (m - k)
        have hcut : m - k = c.length - (k+1) := by omega
        -- split the chunk list at the last pair
        rw [segmentChunks, hinds,
          pairChunks, zip_tail_concat _ _ (by simp), List.map_append, hlast]
        have hfront :
            ((0 :: (descRangeP k (m - k)).reverse).zip
                (0 :: (descRangeP k (m - k)).reverse).tail).map
              (fun p => (c.drop p.1).take (p.2 - p.1)) =
            segmentChunks k (c.take (m - k)) := by
          have htfront : ∀ x ∈ 0 :: (descRangeP k (m - k)).reverse, x ≤ m - k := by
            intro x hx
            rcases List.mem_cons.mp hx with h1 | h2
            · omega
            · exact (descRangeP_mem k (m - k) x (List.mem_reverse.mp h2)).2
          have hlen : (c.take (m - k)).length = m - k := by
            rw [List.length_take]; omega
          rw [segmentChunks, hlen, segSepInds]
          rw [pairChunks_take c _ (m - k) htfront]
          rfl
        rw [hfront, ih (m - k) (by omega) _ (by rw [List.length_take]; omega)]
        rw [revChunk_cons k c hne, ← hcut]
        simp only [List.map_cons, List.map_nil]
        congr 2
        have hdlen : (c.drop (m - k)).length = (m + 1) - (m - k) := by
          rw [List.length_drop]; omega
        exact List.take_of_length_le (le_of_eq hdlen)
  exact H content.length content rfl

/-! ## Facts about one row's segments -/

theorem memTokenIds_length (cfg : RMTConfig) :
    (memTokenIds cfg).length = cfg.num_mem_tokens := by
  simp [memTokenIds]

/-- A positive window fits in a segment together with the `M + 3` marker and
memory positions. -/
theorem effectiveK_bound (cfg : RMTConfig) (hK : 0 < effectiveK cfg) :
    effectiveK cfg + cfg.num_mem_tokens + 3 ≤ cfg.input_size := by
  have hle : effectiveK cfg ≤ cfg.input_size - cfg.num_mem_tokens - 3 := by
    unfold effectiveK
    cases cfg.input_seg_size with
    | none => simp
    | some v =>
      simp only
      split <;> omega
  omega

/-- The wrapped-and-padded segment built from a chunk that fits has exactly
`input_size` tokens. -/
theorem padAddSpecialTokens_length (cfg : RMTConfig) (t : List Nat)
    (ht : t.length + cfg.num_mem_tokens + 3 ≤ cfg.input_size) :
    (padAddSpecialTokens cfg t).length = cfg.input_size := by
  unfold padAddSpecialTokens
  simp [memTokenIds_length]
  omega

theorem emptySeg_length (cfg : RMTConfig) (hK : 0 < effectiveK cfg) :
    (emptySeg cfg).length = cfg.input_size := by
  have := effectiveK_bound cfg hK
  exact padAddSpecialTokens_length cfg [] (by simp; omega)

/-- The stripped content of a row is never longer than the row. -/
theorem strippedRow_length_le (cfg : RMTConfig) (row : List Nat) :
    (strippedRow cfg row).length ≤ row.length := by
  unfold strippedRow
  have h1 := List.length_filter_le (fun t => t ≠ cfg.pad_token_id) row
  have h2 := List.length_dropLast ((row.filter (fun t => t ≠ cfg.pad_token_id)).drop 1)
  have h3 := List.length_drop 1 (row.filter (fun t => t ≠ cfg.pad_token_id))
  omega

/-- Elements of the stripped content are never the pad id. -/
theorem strippedRow_ne_pad (cfg : RMTConfig) (row : List Nat) :
    ∀ x ∈ strippedRow cfg row, x ≠ cfg.pad_token_id := by
  intro x hx
  unfold strippedRow at hx
  have : x ∈ row.filter (fun t => t ≠ cfg.pad_token_id) :=
    List.mem_of_mem_drop (List.dropLast_subset _ hx)
  simpa using (List.of_mem_filter this)

theorem ceilDiv_mono (K a b : Nat) (h : a ≤ b) : ceilDiv a K ≤ ceilDiv b K := by
  unfold ceilDiv
  exact Nat.div_le_div_right (by omega)

/-- Every segment a row produces (empty sentinels included) has exactly
`input_size` tokens. -/
theorem segmentsOfRow_seg_length (cfg : RMTConfig) (n : Nat) (row : List Nat)
    (hK : 0 < effectiveK cfg) :
    ∀ seg ∈ segmentsOfRow cfg n row, seg.length = cfg.input_size := by
  intro seg hseg
  have hKb := effectiveK_bound cfg hK
  unfold segmentsOfRow at hseg
  rcases List.mem_append.mp hseg with h1 | h2
  · rw [List.eq_of_mem_replicate h1]
    exact emptySeg_length cfg hK
  · obtain ⟨c, hc, rfl⟩ := List.mem_map.mp h2
    rw [segmentChunks_eq_revChunk] at hc
    have hb := (revChunk_chunk_bounds _ _ c hc).2
    have : effectiveK cfg - 1 + 1 = effectiveK cfg := by omega
    rw [this] at hb
    exact padAddSpecialTokens_length cfg c (by omega)

/-- A row produces exactly `n` segments whenever its own chunk count cannot
exceed `n` (which holds when `n = ⌈W / K⌉` for the batch width `W` and the
stripped content is at most `W` long). -/
theorem segmentsOfRow_count (cfg : RMTConfig) (n : Nat) (row : List Nat) (W : Nat)
    (hK : 0 < effectiveK cfg) (hW : (strippedRow cfg row).length ≤ W)
    (hn : ceilDiv W (effectiveK cfg) ≤ n) :
    (segmentsOfRow cfg n row).length = n := by
  unfold segmentsOfRow
  simp only [List.length_append, List.length_replicate, List.length_map]
  have hc : (segmentChunks (effectiveK cfg - 1) (strippedRow cfg row)).length ≤ n := by
    rw [segmentChunks_eq_revChunk, revChunk_count]
    have h1 : effectiveK cfg - 1 + 1 = effectiveK cfg := by omega
    rw [h1]
    exact le_trans (ceilDiv_mono _ _ _ hW) hn
  omega

/-- `padAddSpecialTokens`, with the grouping convenient for extraction. -/
theorem padAddSpecialTokens_eq (cfg : RMTConfig) (t : List Nat) :
    padAddSpecialTokens cfg t =
      ((cfg.cls_token_id :: memTokenIds cfg ++ [cfg.sep_token_id]) ++ t)
        ++ [cfg.sep_token_id]
        ++ List.replicate (cfg.input_size - (cfg.num_mem_tokens + 3 + t.length))
            cfg.pad_token_id := by
  have hstep : padAddSpecialTokens cfg t =
      (cfg.cls_token_id :: (memTokenIds cfg ++ cfg.sep_token_id :: (t ++ [cfg.sep_token_id])))
        ++ List.replicate
          (cfg.input_size -
            (cfg.cls_token_id ::
              (memTokenIds cfg ++ cfg.sep_token_id :: (t ++ [cfg.sep_token_id]))).length)
          cfg.pad_token_id := rfl
  rw [hstep]
  have hlen :
      (cfg.cls_token_id ::
        (memTokenIds cfg ++ cfg.sep_token_id :: (t ++ [cfg.sep_token_id]))).length
      = cfg.num_mem_tokens + 3 + t.length := by
    simp [memTokenIds_length]
    omega
  rw [hlen]
  simp

theorem dropWhile_pad_replicate (a : Nat) (q : Nat) (l : List Nat) :
    (List.replicate q a ++ l).dropWhile (fun x => x = a) =
      l.dropWhile (fun x => x = a) := by
  induction q with
  | zero => simp
  | succ q ih => simp [List.replicate_succ, ih]

/-- Extraction undoes wrapping: reading back the content window of a wrapped
chunk gives the chunk, for any chunk and any amount of right padding. -/
theorem extractContent_padAdd (cfg : RMTConfig) (t : List Nat)
    (hsep : cfg.sep_token_id ≠ cfg.pad_token_id) :
    extractContent cfg (padAddSpecialTokens cfg t) = t := by
  rw [padAddSpecialTokens_eq]
  unfold extractContent
  rw [List.reverse_append, List.reverse_replicate, dropWhile_pad_replicate]
  rw [List.reverse_append]
  have hsep' : ((cfg.sep_token_id :
      Nat) :: ((cfg.cls_token_id :: memTokenIds cfg ++ [cfg.sep_token_id]) ++ t).reverse).dropWhile
        (fun x => x = cfg.pad_token_id)
      = cfg.sep_token_id :: ((cfg.cls_token_id :: memTokenIds cfg ++ [cfg.sep_token_id]) ++ t).reverse := by
    simp [List.dropWhile_cons, hsep]
  simp only [List.reverse_singleton, List.singleton_append, hsep']
  rw [show (cfg.sep_token_id ::
      ((cfg.cls_token_id :: memTokenIds cfg ++ [cfg.sep_token_id]) ++ t).reverse).reverse
    = ((cfg.cls_token_id :: memTokenIds cfg ++ [cfg.sep_token_id]) ++ t) ++ [cfg.sep_token_id] by
      simp]
  rw [List.dropLast_concat]
  have hpre : (cfg.cls_token_id :: memTokenIds cfg ++ [cfg.sep_token_id]).length
      = cfg.num_mem_tokens + 2 := by
    simp [memTokenIds_length]
  rw [← hpre, List.drop_left]

/-- Reading every segment of a row back and concatenating reconstructs the
stripped content exactly (empty sentinel segments contribute nothing). -/
theorem segmentsOfRow_reconstruct (cfg : RMTConfig) (n : Nat) (row : List Nat)
    (hsep : cfg.sep_token_id ≠ cfg.pad_token_id) :
    ((segmentsOfRow cfg n row).map (extractContent cfg)).flatten
      = strippedRow cfg row := by
  unfold segmentsOfRow
  rw [List.map_append, List.flatten_append]
  have hempty : extractContent cfg (emptySeg cfg) = [] :=
    extractContent_padAdd cfg [] hsep
  have hrep :
      (((List.replicate
          (n - ((segmentChunks (effectiveK cfg - 1) (strippedRow cfg row)).map
            (padAddSpecialTokens cfg)).length) (emptySeg cfg))).map
        (extractContent cfg)).flatten = [] := by
    rw [List.map_replicate, hempty]
    simp
  rw [hrep, List.nil_append, List.map_map]
  have hmap : (segmentChunks (effectiveK cfg - 1) (strippedRow cfg row)).map
      (extractContent cfg ∘ padAddSpecialTokens cfg)
      = (segmentChunks (effectiveK cfg - 1) (strippedRow cfg row)).map id :=
    List.map_congr_left (fun c _ => extractContent_padAdd cfg c hsep)
  rw [hmap, List.map_id, segmentChunks_eq_revChunk, revChunk_flatten]

/-! ## From the per-row segment list to the chunked batch tensors -/

/-- `torch.chunk` on a concatenation of equal-width pieces returns the
pieces: slice `j` of the flattening is piece `j`. -/
theorem flatten_chunkAt (ls : List (List Nat)) (size : Nat)
    (hall : ∀ l ∈ ls, l.length = size) :
    ∀ j < ls.length, (ls.flatten.drop (j * size)).take size = ls.getD j [] := by
  induction ls with
  | nil => intro j hj; simp at hj
  | cons a tl ih =>
    intro j hj
    match j with
    | 0 =>
      simp only [Nat.zero_mul, List.drop_zero, List.flatten_cons, List.getD_cons_zero]
      exact List.take_left' (hall a (List.mem_cons_self a tl))
    | (j+1) =>
      have hstep : (j + 1) * size = a.length + j * size := by
        rw [hall a (List.mem_cons_self a tl)]; ring
      rw [List.flatten_cons, hstep, List.drop_append, List.getD_cons_succ]
      exact ih (fun l hl => hall l (List.mem_cons_of_mem a hl)) j
        (by simpa using hj)

/-- Reading a list back off by indexing `range` over its length. -/
theorem map_range_getD {α : Type} (l : List α) (d : α) :
    (List.range l.length).map (fun i => l.getD i d) = l := by
  induction l with
  | nil => simp
  | cons a tl ih =>
    simp only [List.length_cons, List.range_succ_eq_map, List.map_cons, List.map_map,
      List.getD_cons_zero]
    have hcomp : ((fun i => (a :: tl).getD i d) ∘ Nat.succ) = (fun i => tl.getD i d) := by
      funext i
      exact List.getD_cons_succ ..
    rw [hcomp, ih]

theorem padAndSegment_fst (cfg : RMTConfig) (rows : List (List Nat)) :
    (padAndSegment cfg rows).1 =
      (List.range (nSegments cfg rows)).map (fun s =>
        rows.map (fun r =>
          ((augmentedRow cfg (nSegments cfg rows) r).drop (s * cfg.input_size)).take
            cfg.input_size)) := rfl

/-- Under a rectangular batch of width `W` and a positive window, slice `s` of
a row's concatenated segments is its `s`-th segment. -/
theorem padAndSegment_slice (cfg : RMTConfig) (rows : List (List Nat)) (W : Nat)
    (hK : 0 < effectiveK cfg) (hrect : ∀ r ∈ rows, r.length = W)
    (row : List Nat) (hrow : row ∈ rows) (s : Nat) (hs : s < nSegments cfg rows) :
    ((augmentedRow cfg (nSegments cfg rows) row).drop (s * cfg.input_size)).take
        cfg.input_size
      = (segmentsOfRow cfg (nSegments cfg rows) row).getD s [] := by
  have hne : rows ≠ [] := by
    intro h
    rw [h] at hrow
    simp at hrow
  have hWn : nSegments cfg rows = ceilDiv W (effectiveK cfg) := by
    obtain ⟨r0, rs, rfl⟩ := List.exists_cons_of_ne_nil hne
    unfold nSegments
    rw [show ((r0 :: rs).headD []) = r0 from rfl,
      hrect r0 (List.mem_cons_self r0 rs)]
  have hcount : (segmentsOfRow cfg (nSegments cfg rows) row).length
      = nSegments cfg rows :=
    segmentsOfRow_count cfg _ row W hK
      (le_trans (strippedRow_length_le cfg row) (le_of_eq (hrect row hrow)))
      (le_of_eq hWn.symm)
  exact flatten_chunkAt _ _ (segmentsOfRow_seg_length cfg _ row hK) s
    (by rw [hcount]; exact hs)

/-! ## The claims about segmentation -/

/-- C3, counterexample: for the single-row batch `[[101,5,6,7,8,102]]` with
`K = 5` the stripped content has length `L = 4` and `⌈L/K⌉ = 1`, but the code
produces `2` segments (it divides the raw width `6`, not `L`). -/
theorem c3_counterexample :
    (padAndSegment cfgSeg [[101, 5, 6, 7, 8, 102]]).1.length = 2 ∧
    (strippedRow cfgSeg [101, 5, 6, 7, 8, 102]).length = 4 ∧
    ceilDiv 4 (effectiveK cfgSeg) = 1 := by decide

/-- C3, amended: for a rectangular batch of raw (padded, unstripped) width
`W`, the number of produced segments is `⌈W / K⌉` — the width of the batch
tensor, not the stripped content length, drives the segment count. -/
theorem c3_segment_count (cfg : RMTConfig) (rows : List (List Nat)) (W : Nat)
    (hne : rows ≠ []) (hrect : ∀ r ∈ rows, r.length = W) :
    (padAndSegment cfg rows).1.length = ceilDiv W (effectiveK cfg) := by
  rw [padAndSegment_fst, List.length_map, List.length_range]
  obtain ⟨r0, rs, rfl⟩ := List.exists_cons_of_ne_nil hne
  unfold nSegments
  rw [show ((r0 :: rs).headD []) = r0 from rfl, hrect r0 (List.mem_cons_self r0 rs)]

theorem c3_segment_count_witness :
    ((([[101, 5, 6, 7, 8, 102]] : List (List Nat)) ≠ []) ∧
      (∀ r ∈ ([[101, 5, 6, 7, 8, 102]] : List (List Nat)), r.length = 6)) ∧
    (padAndSegment cfgSeg [[101, 5, 6, 7, 8, 102]]).1.length
      = ceilDiv 6 (effectiveK cfgSeg) :=
  ⟨⟨by decide, by decide⟩,
    c3_segment_count cfgSeg [[101, 5, 6, 7, 8, 102]] 6 (by decide) (by decide)⟩

/-- C4: for every row of a rectangular batch, concatenating the content
windows of all its produced segments (stripping the start marker, the `M`
memory positions, the separators and the padding) reconstructs the stripped
content of that row exactly. -/
theorem c4_reconstruction (cfg : RMTConfig) (rows : List (List Nat)) (W : Nat)
    (hK : 0 < effectiveK cfg) (hsep : cfg.sep_token_id ≠ cfg.pad_token_id)
    (hrect : ∀ r ∈ rows, r.length = W)
    (j : Nat) (row : List Nat) (hj : rows[j]? = some row) :
    (((padAndSegment cfg rows).1).map
        (fun segBatch => extractContent cfg (segBatch.getD j []))).flatten
      = strippedRow cfg row := by
  have hrow : row ∈ rows := by
    obtain ⟨hlt, hget⟩ := List.getElem?_eq_some.mp hj
    exact hget ▸ List.getElem_mem hlt
  have hcount : (segmentsOfRow cfg (nSegments cfg rows) row).length
      = nSegments cfg rows := by
    have hne : rows ≠ [] := by
      intro h; rw [h] at hrow; simp at hrow
    obtain ⟨r0, rs, hrr⟩ := List.exists_cons_of_ne_nil hne
    refine segmentsOfRow_count cfg _ row W hK
      (le_trans (strippedRow_length_le cfg row) (le_of_eq (hrect row hrow))) ?_
    unfold nSegments
    rw [hrr, show ((r0 :: rs).headD []) = r0 from rfl]
    rw [hrect r0 (hrr ▸ List.mem_cons_self r0 rs)]
  rw [padAndSegment_fst, List.map_map]
  have hcongr : (List.range (nSegments cfg rows)).map
      ((fun segBatch => extractContent cfg (segBatch.getD j [])) ∘ (fun s =>
        rows.map (fun r =>
          ((augmentedRow cfg (nSegments cfg rows) r).drop (s * cfg.input_size)).take
            cfg.input_size)))
      = (List.range (nSegments cfg rows)).map (fun s =>
          extractContent cfg ((segmentsOfRow cfg (nSegments cfg rows) row).getD s [])) := by
    apply List.map_congr_left
    intro s hsr
    have hs : s < nSegments cfg rows := List.mem_range.mp hsr
    simp only [Function.comp]
    congr 1
    have hgm : (rows.map (fun r =>
        ((augmentedRow cfg (nSegments cfg rows) r).drop (s * cfg.input_size)).take
          cfg.input_size)).getD j []
        = ((augmentedRow cfg (nSegments cfg rows) row).drop (s * cfg.input_size)).take
          cfg.input_size := by
      obtain ⟨hlt, hget⟩ := List.getElem?_eq_some.mp hj
      rw [List.getD_eq_getElem _ _ (by rw [List.length_map]; exact hlt),
        List.getElem_map, hget]
    rw [hgm]
    exact padAndSegment_slice cfg rows W hK hrect row hrow s hs
  rw [hcongr]
  have hback : ∀ (segsRow : List (List Nat)),
      segsRow.length = nSegments cfg rows →
      (List.range (nSegments cfg rows)).map (fun s =>
        extractContent cfg (segsRow.getD s []))
      = segsRow.map (extractContent cfg) := by
    intro segsRow hlen
    rw [← hlen]
    have hsplit : (fun s => extractContent cfg (segsRow.getD s []))
        = (extractContent cfg) ∘ (fun s => segsRow.getD s []) := rfl
    rw [hsplit, ← List.map_map, map_range_getD]
  rw [hback _ hcount]
  exact segmentsOfRow_reconstruct cfg _ row hsep

theorem c4_reconstruction_witness :
    ((0 < effectiveK cfgSeg) ∧ (cfgSeg.sep_token_id ≠ cfgSeg.pad_token_id) ∧
      (∀ r ∈ ([[101, 5, 6, 7, 8, 102]] : List (List Nat)), r.length = 6) ∧
      (([[101, 5, 6, 7, 8, 102]] : List (List Nat))[0]? = some [101, 5, 6, 7, 8, 102])) ∧
    (((padAndSegment cfgSeg [[101, 5, 6, 7, 8, 102]]).1).map
        (fun segBatch => extractContent cfgSeg (segBatch.getD 0 []))).flatten
      = strippedRow cfgSeg [101, 5, 6, 7, 8, 102] :=
  ⟨⟨by decide, by decide, by decide, by decide⟩,
    c4_reconstruction cfgSeg [[101, 5, 6, 7, 8, 102]] 6 (by decide) (by decide)
      (by decide) 0 [101, 5, 6, 7, 8, 102] (by decide)⟩

/-- C8: for a rectangular batch and a positive content window, every produced
segment (empty sentinels included) has exactly `input_size` tokens. -/
theorem c8_segment_length (cfg : RMTConfig) (rows : List (List Nat)) (W : Nat)
    (hK : 0 < effectiveK cfg) (hrect : ∀ r ∈ rows, r.length = W) :
    ∀ segBatch ∈ (padAndSegment cfg rows).1, ∀ seg ∈ segBatch,
      seg.length = cfg.input_size := by
  intro segBatch hsb seg hseg
  rw [padAndSegment_fst] at hsb
  obtain ⟨s, hsr, rfl⟩ := List.mem_map.mp hsb
  have hs : s < nSegments cfg rows := List.mem_range.mp hsr
  obtain ⟨row, hrow, rfl⟩ := List.mem_map.mp hseg
  rw [padAndSegment_slice cfg rows W hK hrect row hrow s hs]
  have hcount : (segmentsOfRow cfg (nSegments cfg rows) row).length
      = nSegments cfg rows := by
    have hne : rows ≠ [] := by
      intro h; rw [h] at hrow; simp at hrow
    obtain ⟨r0, rs, hrr⟩ := List.exists_cons_of_ne_nil hne
    refine segmentsOfRow_count cfg _ row W hK
      (le_trans (strippedRow_length_le cfg row) (le_of_eq (hrect row hrow))) ?_
    unfold nSegments
    rw [hrr, show ((r0 :: rs).headD []) = r0 from rfl]
    rw [hrect r0 (hrr ▸ List.mem_cons_self r0 rs)]
  have hlt : s < (segmentsOfRow cfg (nSegments cfg rows) row).length := by
    rw [hcount]; exact hs
  rw [List.getD_eq_getElem _ _ hlt]
  exact segmentsOfRow_seg_length cfg _ row hK _ (List.getElem_mem hlt)

theorem c8_segment_length_witness :
    ((0 < effectiveK cfgSeg) ∧
      (∀ r ∈ ([[101, 5, 6, 7, 8, 102]] : List (List Nat)), r.length = 6)) ∧
    (∀ segBatch ∈ (padAndSegment cfgSeg [[101, 5, 6, 7, 8, 102]]).1,
      ∀ seg ∈ segBatch, seg.length = cfgSeg.input_size) :=
  ⟨⟨by decide, by decide⟩,
    c8_segment_length cfgSeg [[101, 5, 6, 7, 8, 102]] 6 (by decide) (by decide)⟩

/-- C9: when the stripped length `L` is not a multiple of `K`, the FIRST chunk
is the short one — it has `L % K < K` tokens — and every later chunk has
exactly `K`; and the spec's concrete scenario: content `[5,…,11]` with `K = 5`
chunks as `[5,6]`, `[7,8,9,10,11]`, each wrapped as
`[101, 200, 201, 102, content…, 102]` padded with `0` to length 10. -/
theorem c9_first_segment_short (cfg : RMTConfig) (row : List Nat)
    (hK : 0 < effectiveK cfg)
    (hmod : (strippedRow cfg row).length % effectiveK cfg ≠ 0) :
    (∃ c cs, segmentChunks (effectiveK cfg - 1) (strippedRow cfg row) = c :: cs ∧
      c.length = (strippedRow cfg row).length % effectiveK cfg ∧
      c.length < effectiveK cfg ∧
      ∀ d ∈ cs, d.length = effectiveK cfg) ∧
    segmentChunks 4 [5, 6, 7, 8, 9, 10, 11] = [[5, 6], [7, 8, 9, 10, 11]] ∧
    padAddSpecialTokens cfgSeg [5, 6] = [101, 200, 201, 102, 5, 6, 102, 0, 0, 0] ∧
    padAddSpecialTokens cfgSeg [7, 8, 9, 10, 11] =
      [101, 200, 201, 102, 7, 8, 9, 10, 11, 102] := by
  refine ⟨?_, by decide, by decide, by decide⟩
  have hk1 : effectiveK cfg - 1 + 1 = effectiveK cfg := by omega
  have hLne : strippedRow cfg row ≠ [] := by
    intro hnil
    exact hmod (by rw [hnil]; simp)
  obtain ⟨c, cs, heq, hclen, hcs⟩ :=
    revChunk_struct (effectiveK cfg - 1) (strippedRow cfg row) hLne
  rw [hk1] at hclen hcs
  have hr1 : 1 ≤ (strippedRow cfg row).length % effectiveK cfg :=
    Nat.pos_of_ne_zero hmod
  have hrK : (strippedRow cfg row).length % effectiveK cfg < effectiveK cfg :=
    Nat.mod_lt _ hK
  have hmodeq : ((strippedRow cfg row).length - 1) % effectiveK cfg
      = (strippedRow cfg row).length % effectiveK cfg - 1 := by
    have hdm := Nat.div_add_mod (strippedRow cfg row).length (effectiveK cfg)
    have hrw : (strippedRow cfg row).length - 1
        = ((strippedRow cfg row).length % effectiveK cfg - 1)
          + effectiveK cfg * ((strippedRow cfg row).length / effectiveK cfg) := by
      omega
    rw [hrw, Nat.add_mul_mod_self_left]
    exact Nat.mod_eq_of_lt (by omega)
  refine ⟨c, cs, ?_, ?_, ?_, hcs⟩
  · rw [segmentChunks_eq_revChunk, heq]
  · rw [hclen, hmodeq]; omega
  · rw [hclen, hmodeq]; omega

theorem c9_first_segment_short_witness :
    ((0 < effectiveK cfgSeg) ∧
      (strippedRow cfgSeg [101, 5, 6, 7, 8, 9, 10, 11, 102]).length
        % effectiveK cfgSeg ≠ 0) ∧
    ((∃ c cs, segmentChunks (effectiveK cfgSeg - 1)
        (strippedRow cfgSeg [101, 5, 6, 7, 8, 9, 10, 11, 102]) = c :: cs ∧
      c.length = (strippedRow cfgSeg [101, 5, 6, 7, 8, 9, 10, 11, 102]).length
        % effectiveK cfgSeg ∧
      c.length < effectiveK cfgSeg ∧
      ∀ d ∈ cs, d.length = effectiveK cfgSeg) ∧
    segmentChunks 4 [5, 6, 7, 8, 9, 10, 11] = [[5, 6], [7, 8, 9, 10, 11]] ∧
    padAddSpecialTokens cfgSeg [5, 6] = [101, 200, 201, 102, 5, 6, 102, 0, 0, 0] ∧
    padAddSpecialTokens cfgSeg [7, 8, 9, 10, 11] =
      [101, 200, 201, 102, 7, 8, 9, 10, 11, 102]) :=
  ⟨⟨by decide, by decide⟩,
    c9_first_segment_short cfgSeg [101, 5, 6, 7, 8, 9, 10, 11, 102]
      (by decide) (by decide)⟩

/-- C10: the content fed into segmentation deletes EVERY pad-id element of the
row and then unconditionally drops the first and last of the remainder: the
row `[101, 5, 0, 6, 102]` (a pad id inside the content) segments to content
`[5, 6]` — the interior `0` is lost — and the marker-less row `[5, 6, 7]`
segments to content `[6]` — real first/last tokens are lost. -/
theorem c10_strip_semantics :
    ((((padAndSegment cfgSeg [[101, 5, 0, 6, 102]]).1).map
        (fun segBatch => extractContent cfgSeg (segBatch.getD 0 []))).flatten
      = [5, 6]) ∧
    ((((padAndSegment cfgSeg [[5, 6, 7]]).1).map
        (fun segBatch => extractContent cfgSeg (segBatch.getD 0 []))).flatten
      = [6]) ∧
    strippedRow cfgSeg [101, 5, 0, 6, 102] = [5, 6] ∧
    strippedRow cfgSeg [5, 6, 7] = [6] := by decide

/-! ## Scatter / mask lemmas for the forward pass -/

theorem scatterUpdate_nil_olds {α : Type} (b : Bool) (ms : List Bool)
    (news : List α) : scatterUpdate (b :: ms) [] news = [] := by
  cases b <;> rfl

theorem scatterUpdate_true_cons {α : Type} (ms : List Bool) (o : α) (os : List α)
    (n : α) (ns : List α) :
    scatterUpdate (true :: ms) (o :: os) (n :: ns) = n :: scatterUpdate ms os ns := rfl

theorem scatterUpdate_true_nil {α : Type} (ms : List Bool) (o : α) (os : List α) :
    scatterUpdate (true :: ms) (o :: os) [] = o :: scatterUpdate ms os [] := rfl

theorem scatterUpdate_false_cons {α : Type} (ms : List Bool) (o : α) (os : List α)
    (ns : List α) :
    scatterUpdate (false :: ms) (o :: os) ns = o :: scatterUpdate ms os ns := by
  cases ns <;> rfl

theorem scatterUpdate_length {α : Type} :
    ∀ (mask : List Bool) (olds news : List α),
      (scatterUpdate mask olds news).length = olds.length := by
  intro mask
  induction mask with
  | nil => intro olds news; rfl
  | cons b ms ih =>
    intro olds news
    match olds with
    | [] => rw [scatterUpdate_nil_olds]
    | o :: os =>
      match b, news with
      | true, n :: ns => rw [scatterUpdate_true_cons]; simp [ih]
      | true, [] => rw [scatterUpdate_true_nil]; simp [ih]
      | false, ns => rw [scatterUpdate_false_cons]; simp [ih]

/-- A masked-out position keeps its old row. -/
theorem scatterUpdate_getElem_false {α : Type} :
    ∀ (mask : List Bool) (olds news : List α) (e : Nat),
      mask[e]? = some false →
      (scatterUpdate mask olds news)[e]? = olds[e]? := by
  intro mask
  induction mask with
  | nil => intro olds news e h; simp at h
  | cons b ms ih =>
    intro olds news e h
    match olds with
    | [] => rw [scatterUpdate_nil_olds]
    | o :: os =>
      match b, news with
      | true, n :: ns =>
        rw [scatterUpdate_true_cons]
        match e, h with
        | 0, h => simp at h
        | (e+1), h =>
          simp only [List.getElem?_cons_succ]
          exact ih os ns e (by simpa using h)
      | true, [] =>
        rw [scatterUpdate_true_nil]
        match e, h with
        | 0, h => simp at h
        | (e+1), h =>
          simp only [List.getElem?_cons_succ]
          exact ih os [] e (by simpa using h)
      | false, ns =>
        rw [scatterUpdate_false_cons]
        match e, h with
        | 0, _ => simp
        | (e+1), h =>
          simp only [List.getElem?_cons_succ]
          exact ih os ns e (by simpa using h)

/-- A masked-in position receives row `maskRank mask e` of the update. -/
theorem scatterUpdate_getElem_true {α : Type} :
    ∀ (mask : List Bool) (olds news : List α) (e : Nat),
      mask[e]? = some true →
      olds.length = mask.length →
      news.length = mask.count true →
      (scatterUpdate mask olds news)[e]? = news[maskRank mask e]? := by
  intro mask
  induction mask with
  | nil => intro olds news e h; simp at h
  | cons b ms ih =>
    intro olds news e h holds hnews
    match olds with
    | [] => simp at holds
    | o :: os =>
      have holds' : os.length = ms.length := by simpa using holds
      match b, news with
      | true, [] => simp [List.count_cons] at hnews
      | true, n :: ns =>
        rw [scatterUpdate_true_cons]
        have hnews' : ns.length = ms.count true := by
          have : (true :: ms).count true = ms.count true + 1 := by
            simp [List.count_cons]
          rw [this] at hnews
          simpa using hnews
        match e, h with
        | 0, _ =>
          have : maskRank (true :: ms) 0 = 0 := by simp [maskRank]
          rw [this]
          simp
        | (e+1), h =>
          have hrank : maskRank (true :: ms) (e+1) = maskRank ms e + 1 := by
            simp [maskRank, List.count_cons, List.take_succ_cons]
          rw [hrank]
          simp only [List.getElem?_cons_succ]
          exact ih os ns e (by simpa using h) holds' hnews'
      | false, ns =>
        rw [scatterUpdate_false_cons]
        have hnews' : ns.length = ms.count true := by
          simpa [List.count_cons] using hnews
        match e, h with
        | 0, h => simp at h
        | (e+1), h =>
          have hrank : maskRank (false :: ms) (e+1) = maskRank ms e := by
            simp [maskRank, List.count_cons, List.take_succ_cons]
          rw [hrank]
          simp only [List.getElem?_cons_succ]
          exact ih os ns e (by simpa using h) holds' hnews'

/-- `xs[mask]` has one row per `true` in the mask (equal lengths). -/
theorem applyMask_length {α : Type} :
    ∀ (mask : List Bool) (xs : List α), xs.length = mask.length →
      (applyMask mask xs).length = mask.count true := by
  intro mask
  induction mask with
  | nil => intro xs h; simp [applyMask]
  | cons b ms ih =>
    intro xs h
    match xs with
    | [] => simp at h
    | x :: xs' =>
      have h' : xs'.length = ms.length := by simpa using h
      match b with
      | true =>
        show (applyMask (true :: ms) (x :: xs')).length = _
        simp only [applyMask, List.zip_cons_cons, List.filter_cons] at *
        simp only [List.count_cons]
        have := ih xs' h'
        simp [applyMask] at this
        simp [this]
      | false =>
        simp only [applyMask, List.zip_cons_cons, List.filter_cons] at *
        simp only [List.count_cons]
        have := ih xs' h'
        simp [applyMask] at this
        simp [this]

/-- Rank of a position inside an all-`true` mask is the position itself. -/
theorem maskRank_replicate_true (B e : Nat) (he : e < B) :
    maskRank (List.replicate B true) e = e := by
  unfold maskRank
  rw [List.take_replicate]
  rw [show min e B = e by omega]
  simp

/-- Everything the loop body guarantees about one successful step. -/
theorem stepRMT_inv {V : Type} (cfg : RMTConfig) (model : ModelFn V)
    (wordEmb : Nat → V) (labels : Option (List Int)) (segNum : Nat)
    (memory : List (List V)) (ids attn tt : List (List Nat))
    (hmodel : ∀ a b c d, ((model a b c d).hidden).length = a.length)
    (hB : ids.length = memory.length)
    (newMem : List (List V)) (outOpt : Option (ModelOutput V)) (ev : StepEvent V)
    (h : stepRMT cfg model wordEmb labels segNum memory ids attn tt
      = .ok (newMem, outOpt, ev)) :
    ev.segNum = segNum ∧
    ev.memEntering = memory ∧
    ev.modelOut = outOpt ∧
    newMem = nextMem cfg ev ∧
    newMem.length = memory.length ∧
    ev.mask.length = memory.length ∧
    ev.detached = (decide (cfg.bptt_depth > -1) &&
      decide ((3 : Int) - (segNum : Int) > cfg.bptt_depth)) ∧
    (∀ out, ev.modelOut = some out →
      out.hidden.length =
        (if cfg.drop_empty_segments then ev.mask.count true else memory.length)) ∧
    (cfg.drop_empty_segments = true →
      ev.mask = ids.map (fun row => !(decide (row = emptySeg cfg))) ∧
      (ev.mask.count true = 0 ↔ ev.modelOut = none) ∧
      (∀ out, ev.modelOut = some out → ∃ l, labels = some l ∧
        ev.labelsPassed = some (some (applyMask ev.mask l)))) ∧
    (cfg.drop_empty_segments = false →
      ev.mask = List.replicate ids.length true ∧ ∃ out, ev.modelOut = some out) := by
  by_cases hd : cfg.drop_empty_segments = true
  · simp only [stepRMT, hd, if_true] at h
    by_cases hc : (ids.map (fun row => !(decide (row = emptySeg cfg)))).count true = 0
    · rw [if_pos hc] at h
      simp only [Except.ok.injEq, Prod.mk.injEq] at h
      obtain ⟨h1, h2, h3⟩ := h
      subst h1 h2 h3
      refine ⟨rfl, rfl, rfl, rfl, rfl, by simp [hB], rfl, ?_, ?_, ?_⟩
      · intro out hout
        simp at hout
      · intro _
        refine ⟨rfl, ⟨fun _ => rfl, fun _ => by simpa using hc⟩, ?_⟩
        intro out hout
        simp at hout
      · intro hcon
        rw [hd] at hcon
        simp at hcon
    · rw [if_neg hc] at h
      split at h
      · simp at h
      · rename_i l
        by_cases hl : l.length = ids.length
        · rw [if_pos hl] at h
          simp only [Except.ok.injEq, Prod.mk.injEq] at h
          obtain ⟨h1, h2, h3⟩ := h
          subst h1 h2 h3
          have hmlen : (ids.map (fun row => !(decide (row = emptySeg cfg)))).length
              = memory.length := by simp [hB]
          refine ⟨rfl, rfl, rfl, ?_, ?_, hmlen, rfl, ?_, ?_, ?_⟩
          · show scatterUpdate _ _ _ = nextMem cfg _
            simp [nextMem, hd]
          · exact scatterUpdate_length _ _ _
          · intro out hout
            rw [if_pos hd]
            have hout' : out = model
                (List.zipWith (injectMemory cfg.num_mem_tokens)
                  ((applyMask (ids.map (fun row => !(decide (row = emptySeg cfg)))) ids).map
                    (fun r => r.map wordEmb))
                  (applyMask (ids.map (fun row => !(decide (row = emptySeg cfg)))) memory))
                (applyMask (ids.map (fun row => !(decide (row = emptySeg cfg)))) attn)
                (applyMask (ids.map (fun row => !(decide (row = emptySeg cfg)))) tt)
                (some (applyMask (ids.map (fun row => !(decide (row = emptySeg cfg)))) l)) := by
              simpa using hout.symm
            rw [hout', hmodel]
            rw [List.length_zipWith, List.length_map]
            rw [applyMask_length _ ids (by simp), applyMask_length _ memory (by simp [hB])]
            simp
          · intro _
            refine ⟨rfl, ?_, ?_⟩
            · constructor
              · intro hcz
                exact absurd hcz hc
              · intro hno
                simp at hno
            · intro out _
              exact ⟨l, rfl, rfl⟩
          · intro hcon
            rw [hd] at hcon
            simp at hcon
        · rw [if_neg hl] at h
          simp at h
  · have hd' : cfg.drop_empty_segments = false := by
      simpa using hd
    simp only [stepRMT, hd', if_false, Bool.false_eq_true] at h
    simp only [Except.ok.injEq, Prod.mk.injEq] at h
    obtain ⟨h1, h2, h3⟩ := h
    subst h1 h2 h3
    refine ⟨rfl, rfl, rfl, ?_, ?_, by simp [hB], rfl, ?_, ?_, ?_⟩
    · simp [nextMem, hd']
    · rw [List.length_map, hmodel]
      rw [List.length_zipWith, List.length_map]
      omega
    · intro out hout
      rw [if_neg (by simp [hd'])]
      have hout' : out = model
          (List.zipWith (injectMemory cfg.num_mem_tokens)
            (ids.map (fun r => r.map wordEmb)) memory) attn tt labels := by
        simpa using hout.symm
      rw [hout', hmodel]
      rw [List.length_zipWith, List.length_map]
      omega
    · intro hcon
      rw [hd'] at hcon
      simp at hcon
    · intro _
      exact ⟨rfl, ⟨_, rfl⟩⟩

/-- The loop invariant: everything the per-step events record about a
successful run, by induction over the segments. -/
theorem rmtLoop_events {V : Type} (cfg : RMTConfig) (model : ModelFn V)
    (wordEmb : Nat → V) (labels : Option (List Int)) (B : Nat)
    (hmodel : ∀ a b c d, ((model a b c d).hidden).length = a.length) :
    ∀ (segs : List (List (List Nat) × List (List Nat) × List (List Nat)))
      (segNum : Nat) (memory : List (List V))
      (outs : List (ModelOutput V)) (evs : List (StepEvent V))
      (finalMem : List (List V)),
      (∀ s ∈ segs, s.1.length = B) →
      memory.length = B →
      rmtLoop cfg model wordEmb labels segs segNum memory = .ok (outs, evs, finalMem) →
      evs.length = segs.length ∧
      (∀ t, evs.head? = some t → t.memEntering = memory) ∧
      outs = evs.filterMap (fun t => t.modelOut) ∧
      (∀ i t t', evs[i]? = some t → evs[i+1]? = some t' →
        t'.memEntering = nextMem cfg t) ∧
      (∀ i t, evs[i]? = some t →
        t.memEntering.length = B ∧ t.mask.length = B ∧
        t.detached = (decide (cfg.bptt_depth > -1) &&
          decide ((3 : Int) - ((segNum + i : Nat) : Int) > cfg.bptt_depth)) ∧
        (∀ out, t.modelOut = some out →
          out.hidden.length =
            (if cfg.drop_empty_segments then t.mask.count true else B)) ∧
        (cfg.drop_empty_segments = true →
          (∃ s, segs[i]? = some s ∧
            t.mask = s.1.map (fun row => !(decide (row = emptySeg cfg)))) ∧
          (t.mask.count true = 0 ↔ t.modelOut = none) ∧
          (∀ out, t.modelOut = some out → ∃ l, labels = some l ∧
            t.labelsPassed = some (some (applyMask t.mask l)))) ∧
        (cfg.drop_empty_segments = false →
          t.mask = List.replicate B true ∧ ∃ out, t.modelOut = some out)) := by
  intro segs
  induction segs with
  | nil =>
    intro segNum memory outs evs finalMem hsegs hmem hrun
    simp only [rmtLoop, Except.ok.injEq, Prod.mk.injEq] at hrun
    obtain ⟨h1, h2, h3⟩ := hrun
    subst h1 h2
    refine ⟨rfl, ?_, rfl, ?_, ?_⟩
    · intro t ht; simp at ht
    · intro i t t' ht; simp at ht
    · intro i t ht; simp at ht
  | cons s rest ih =>
    intro segNum memory outs evs finalMem hsegs hmem hrun
    obtain ⟨ids, attn, tt⟩ := s
    simp only [rmtLoop] at hrun
    cases hstep : stepRMT cfg model wordEmb labels segNum memory ids attn tt with
    | error e =>
      rw [hstep] at hrun
      simp [Except.bind] at hrun
    | ok trip =>
      rw [hstep] at hrun
      obtain ⟨newMem, outOpt, ev⟩ := trip
      simp only [Except.bind] at hrun
      cases hrec : rmtLoop cfg model wordEmb labels rest (segNum + 1) newMem with
      | error e =>
        rw [hrec] at hrun
        simp [Except.bind] at hrun
      | ok trip2 =>
        rw [hrec] at hrun
        obtain ⟨outs', evs', fm'⟩ := trip2
        simp only [Except.bind, Except.ok.injEq, Prod.mk.injEq] at hrun
        obtain ⟨houts, hevs, hfm⟩ := hrun
        have hBid : ids.length = B := hsegs (ids, attn, tt) (List.mem_cons_self _ _)
        obtain ⟨hsg, hme, hmo, hnm, hnml, hmsk, hdet, hhid, hdropf, hnodropf⟩ :=
          stepRMT_inv cfg model wordEmb labels segNum memory ids attn tt hmodel
            (by omega) newMem outOpt ev hstep
        obtain ⟨ihlen, ihhead, ihouts, ihchain, ihidx⟩ :=
          ih (segNum + 1) newMem outs' evs' fm'
            (fun s hs => hsegs s (List.mem_cons_of_mem _ hs)) (by omega) hrec
        subst hevs
        refine ⟨by simp [ihlen], ?_, ?_, ?_, ?_⟩
        · intro t ht
          simp only [List.head?_cons, Option.some.injEq] at ht
          rw [← ht]
          exact hme
        · rw [← houts, ihouts, ← hmo]
          cases hmoc : ev.modelOut <;> simp [List.filterMap_cons, hmoc]
        · intro i t t' ht ht'
          match i with
          | 0 =>
            simp only [List.getElem?_cons_zero, Option.some.injEq] at ht
            have ht'0 : evs'[0]? = some t' := by simpa using ht'
            have hh : evs'.head? = some t' := by
              match evs', ht'0 with
              | x :: xs, h => simpa using h
            rw [ihhead t' hh, ← ht]
            exact hnm
          | (i+1) =>
            have ht1 : evs'[i]? = some t := by simpa using ht
            have ht2 : evs'[i+1]? = some t' := by simpa using ht'
            exact ihchain i t t' ht1 ht2
        · intro i t ht
          match i with
          | 0 =>
            simp only [List.getElem?_cons_zero, Option.some.injEq] at ht
            subst ht
            refine ⟨by rw [hme, hmem], by rw [hmsk, hmem], by simpa using hdet,
              ?_, ?_, ?_⟩
            · intro out ho
              rw [hhid out ho, hmem]
            · intro hdt
              obtain ⟨hm1, hm2, hm3⟩ := hdropf hdt
              exact ⟨⟨(ids, attn, tt), by simp, hm1⟩, hm2, hm3⟩
            · intro hdf
              obtain ⟨hm1, hm2⟩ := hnodropf hdf
              rw [hBid] at hm1
              exact ⟨hm1, hm2⟩
          | (i+1) =>
            have ht1 : evs'[i]? = some t := by simpa using ht
            obtain ⟨p1, p2, p3, p4, p5, p6⟩ := ihidx i t ht1
            refine ⟨p1, p2, ?_, p4, ?_, p6⟩
            · rw [p3, show segNum + 1 + i = segNum + (i + 1) from by omega]
            · intro hdt
              obtain ⟨⟨sx, hsx, hmx⟩, pb, pc⟩ := p5 hdt
              exact ⟨⟨sx, by simpa using hsx, hmx⟩, pb, pc⟩

/-- Unpacking a successful `__call__`: the loop succeeded with the same
events, and the returned outputs are the loop's outputs except for the
`sum_loss` mutation, which preserves the output count. -/
theorem rmtCall_inv {V : Type} (cfg : RMTConfig) (model : ModelFn V)
    (wordEmb : Nat → V) (ids : List (List Nat)) (labels : Option (List Int))
    (outs : List (ModelOutput V)) (evs : List (StepEvent V))
    (h : rmtCall cfg model wordEmb ids labels = .ok (outs, evs)) :
    ∃ outs0 finalMem,
      rmtLoop cfg model wordEmb labels
        (zipSeg (padAndSegment cfg ids).1 (padAndSegment cfg ids).2.1
          (padAndSegment cfg ids).2.2) 0
        (List.replicate ids.length ((memTokenIds cfg).map wordEmb))
        = .ok (outs0, evs, finalMem) ∧
      outs.length = outs0.length ∧
      (cfg.sum_loss = false → outs = outs0) ∧
      (outs0 = [] → outs = []) := by
  simp only [rmtCall] at h
  cases hloop : rmtLoop cfg model wordEmb labels
      (zipSeg (padAndSegment cfg ids).1 (padAndSegment cfg ids).2.1
        (padAndSegment cfg ids).2.2) 0
      (List.replicate ids.length ((memTokenIds cfg).map wordEmb)) with
  | error e =>
    rw [hloop] at h
    simp [Except.bind] at h
  | ok r =>
    rw [hloop] at h
    obtain ⟨outs0, evs0, fm⟩ := r
    simp only [Except.bind] at h
    by_cases hs : cfg.sum_loss = true
    · simp only [hs, if_true] at h
      cases hlast : outs0.getLast? with
      | none =>
        rw [hlast] at h
        simp at h
      | some lastOut =>
        rw [hlast] at h
        simp only [Except.ok.injEq, Prod.mk.injEq] at h
        obtain ⟨ho, he⟩ := h
        have hne : outs0 ≠ [] := by
          intro hh
          rw [hh] at hlast
          simp at hlast
        refine ⟨outs0, fm, by rw [he], ?_, ?_, ?_⟩
        · rw [← ho]
          simp only [List.length_append, List.length_dropLast, List.length_singleton]
          have := List.length_pos.mpr hne
          omega
        · intro hcon
          rw [hs] at hcon
          simp at hcon
        · intro hcon
          exact absurd hcon hne
    · have hs' : cfg.sum_loss = false := by simpa using hs
      simp only [hs'] at h
      simp only [Bool.false_eq_true, if_false, Except.ok.injEq, Prod.mk.injEq] at h
      obtain ⟨ho, he⟩ := h
      exact ⟨outs0, fm, by rw [he], by rw [ho], fun _ => ho.symm, fun hh => by rw [← ho, hh]⟩

/-- The first component of a `zip(*segmented)` entry is a member of the
first list. -/
theorem zipSeg_mem_fst :
    ∀ (A B C : List (List (List Nat)))
      (s : List (List Nat) × List (List Nat) × List (List Nat)),
      s ∈ zipSeg A B C → s.1 ∈ A := by
  intro A
  induction A with
  | nil =>
    intro B C s h
    cases B <;> cases C <;> simp [zipSeg] at h
  | cons a as ih =>
    intro B C s h
    match B, C with
    | [], _ => simp [zipSeg] at h
    | _ :: _, [] => simp [zipSeg] at h
    | b :: bs, c :: cs =>
      rcases List.mem_cons.mp h with h1 | h2
      · rw [h1]
        exact List.mem_cons_self a as
      · exact List.mem_cons_of_mem a (ih bs cs s h2)

/-- Every per-segment batch returned by segmentation has one row per input
example. -/
theorem padAndSegment_batch (cfg : RMTConfig) (rows : List (List Nat)) :
    ∀ sb ∈ (padAndSegment cfg rows).1, sb.length = rows.length := by
  intro sb hsb
  rw [padAndSegment_fst] at hsb
  obtain ⟨s, _, rfl⟩ := List.mem_map.mp hsb
  simp

/-- The record updated by a changed `sum_loss` behaves identically in the
loop (the flag is only read after the loop). -/
theorem stepRMT_sum_irrel {V : Type} (cfg : RMTConfig) (b : Bool)
    (model : ModelFn V) (wordEmb : Nat → V) (labels : Option (List Int))
    (segNum : Nat) (memory : List (List V)) (ids attn tt : List (List Nat)) :
    stepRMT { cfg with sum_loss := b } model wordEmb labels segNum memory ids attn tt
      = stepRMT cfg model wordEmb labels segNum memory ids attn tt := rfl

theorem rmtLoop_sum_irrel {V : Type} (cfg : RMTConfig) (b : Bool)
    (model : ModelFn V) (wordEmb : Nat → V) (labels : Option (List Int)) :
    ∀ (segs : List (List (List Nat) × List (List Nat) × List (List Nat)))
      (segNum : Nat) (memory : List (List V)),
      rmtLoop { cfg with sum_loss := b } model wordEmb labels segs segNum memory
        = rmtLoop cfg model wordEmb labels segs segNum memory := by
  intro segs
  induction segs with
  | nil => intro segNum memory; rfl
  | cons s rest ih =>
    intro segNum memory
    obtain ⟨ids, attn, tt⟩ := s
    simp only [rmtLoop, stepRMT_sum_irrel]
    cases stepRMT cfg model wordEmb labels segNum memory ids attn tt with
    | error e => rfl
    | ok st =>
      simp only [Except.bind]
      rw [ih]

/-- With empty-dropping enabled and no `labels` keyword, the first segment
step that is not fully skipped raises `KeyError` before invoking the model. -/
theorem rmtLoop_keyerror {V : Type} (cfg : RMTConfig) (model : ModelFn V)
    (wordEmb : Nat → V) (hdrop : cfg.drop_empty_segments = true) :
    ∀ (segs : List (List (List Nat) × List (List Nat) × List (List Nat)))
      (segNum : Nat) (memory : List (List V)),
      (∃ s ∈ segs,
        (s.1.map (fun row => !(decide (row = emptySeg cfg)))).count true ≠ 0) →
      rmtLoop cfg model wordEmb none segs segNum memory
        = .error "KeyError: labels" := by
  intro segs
  induction segs with
  | nil =>
    intro segNum memory h
    obtain ⟨s, hs, _⟩ := h
    simp at hs
  | cons s rest ih =>
    intro segNum memory h
    obtain ⟨ids, attn, tt⟩ := s
    simp only [rmtLoop]
    by_cases hc : ((ids.map (fun row => !(decide (row = emptySeg cfg)))).count true = 0)
    · have hstep : stepRMT cfg model wordEmb none segNum memory ids attn tt
          = .ok (memory, none,
            ⟨segNum,
              decide (cfg.bptt_depth > -1) &&
                decide ((3 : Int) - (segNum : Int) > cfg.bptt_depth),
              memory, ids.map (fun row => !(decide (row = emptySeg cfg))), none, none⟩) := by
        simp only [stepRMT, hdrop, if_true]
        rw [if_pos hc]
      rw [hstep]
      simp only [Except.bind]
      obtain ⟨s₀, hs₀, hcnt⟩ := h
      rcases List.mem_cons.mp hs₀ with h1 | h2
      · rw [h1] at hcnt
        exact absurd hc hcnt
      · rw [ih (segNum + 1) memory ⟨s₀, h2, hcnt⟩]
    · have hstep : stepRMT cfg model wordEmb none segNum memory ids attn tt
          = .error "KeyError: labels" := by
        simp only [stepRMT, hdrop, if_true]
        rw [if_neg hc]
      rw [hstep]
      rfl

/-! ## The claims about the forward pass -/

/-- C1, code bug (line 77): `len(segmented)` is the length of the returned
3-tuple, the constant 3, so with `bptt_depth = 2` and FOUR segments the code
detaches memory only at segment index 0 (`3 - 0 > 2`), while the claim and
the spec require detaching exactly at indices 0 and 1 (`4 - i > 2`).  The run
below has 4 segments and records detach flags `[true, false, false, false]`;
at index 1 the claim demands `true` since `4 - 1 > 2`. -/
theorem c1_detach_code_bug :
    (rmtCall cfgBptt modelEcho embTok rowsBptt none).toOption.map
        (fun p => p.2.map (fun e => e.detached))
      = some [true, false, false, false] ∧
    (padAndSegment cfgBptt rowsBptt).1.length = 4 ∧
    cfgBptt.bptt_depth = 2 ∧
    ((4 : Int) - 1 > 2) := by decide

/-- C2, counterexample: with `sum_loss` on and three executed segments of
losses `1, 2, 3`, the returned per-segment losses are `[1, 2, 6]`: the
aggregated loss `6` is attached to the LAST output (line 110 mutates `out`,
the loop variable holding the last executed output), while the first
output's loss stays `1 ≠ 6`; the claim asserts the first carries `6`. -/
theorem c2_sum_loss_counterexample :
    ((rmtCall cfgLoss modelEcho embTok rowsLoss none).toOption.map
        (fun p => p.1.map (fun o => o.loss))
      = some [1, 2, 6]) ∧
    ((rmtCall cfgLossOff modelEcho embTok rowsLoss none).toOption.map
        (fun p => p.1.map (fun o => o.loss))
      = some [1, 2, 3]) ∧
    (1 : Int) + 2 + 3 = 6 ∧ ¬((1 : Int) = 6) := by decide

/-- C2, amended: with `sum_loss` enabled and at least one executed segment,
the returned list equals the plain (non-aggregating) run's list except that
the LAST output's loss is overwritten with the sum of every executed
segment's loss; in particular the loss list becomes
`losses.dropLast ++ [losses.sum]`. -/
theorem c2_sum_loss_last {V : Type} (cfg : RMTConfig) (model : ModelFn V)
    (wordEmb : Nat → V) (ids : List (List Nat)) (labels : Option (List Int))
    (hsum : cfg.sum_loss = true)
    (hne : (rmtCall { cfg with sum_loss := false } model wordEmb ids labels).toOption.map
        (fun p => p.1.isEmpty) = some false) :
    ∃ (outs0 : List (ModelOutput V)) (evs0 : List (StepEvent V))
      (lastOut : ModelOutput V),
      rmtCall { cfg with sum_loss := false } model wordEmb ids labels
        = .ok (outs0, evs0) ∧
      outs0.getLast? = some lastOut ∧
      rmtCall cfg model wordEmb ids labels =
        .ok (outs0.dropLast ++
          [{ lastOut with
              loss := (outs0.map (fun o : ModelOutput V => o.loss)).sum }], evs0) ∧
      (outs0.dropLast ++
          [{ lastOut with
              loss := (outs0.map (fun o : ModelOutput V => o.loss)).sum }]).map
        (fun o : ModelOutput V => o.loss)
        = (outs0.map (fun o : ModelOutput V => o.loss)).dropLast ++
          [(outs0.map (fun o : ModelOutput V => o.loss)).sum] := by
  cases htwin : rmtCall { cfg with sum_loss := false } model wordEmb ids labels with
  | error e =>
    rw [htwin] at hne
    simp [Except.toOption] at hne
  | ok p =>
    obtain ⟨outs0, evs0⟩ := p
    rw [htwin] at hne
    have hne' : outs0 ≠ [] := by
      intro hh
      rw [hh] at hne
      simp [Except.toOption] at hne
    obtain ⟨lastOut, hlast⟩ : ∃ l, outs0.getLast? = some l := by
      cases hg : outs0.getLast? with
      | none => exact absurd (List.getLast?_eq_none_iff.mp hg) hne'
      | some l => exact ⟨l, rfl⟩
    -- invert the twin call down to the loop
    simp only [rmtCall] at htwin
    cases hloop : rmtLoop { cfg with sum_loss := false } model wordEmb labels
        (zipSeg (padAndSegment { cfg with sum_loss := false } ids).1
          (padAndSegment { cfg with sum_loss := false } ids).2.1
          (padAndSegment { cfg with sum_loss := false } ids).2.2) 0
        (List.replicate ids.length
          ((memTokenIds { cfg with sum_loss := false }).map wordEmb)) with
    | error e =>
      rw [hloop] at htwin
      simp [Except.bind] at htwin
    | ok r =>
      rw [hloop] at htwin
      obtain ⟨outsr, evsr, fmr⟩ := r
      simp only [Except.bind, show ({ cfg with sum_loss := false } : RMTConfig).sum_loss
          = false from rfl, Bool.false_eq_true, if_false, Except.ok.injEq,
        Prod.mk.injEq] at htwin
      obtain ⟨ho, he⟩ := htwin
      -- transfer the loop run to `cfg`
      have hloop' : rmtLoop cfg model wordEmb labels
          (zipSeg (padAndSegment cfg ids).1 (padAndSegment cfg ids).2.1
            (padAndSegment cfg ids).2.2) 0
          (List.replicate ids.length ((memTokenIds cfg).map wordEmb))
          = .ok (outsr, evsr, fmr) := by
        rw [← rmtLoop_sum_irrel cfg false model wordEmb labels]
        exact hloop
      refine ⟨outs0, evs0, lastOut, rfl, hlast, ?_, ?_⟩
      · simp only [rmtCall]
        rw [hloop', ho, he]
        simp only [Except.bind, hsum, if_true]
        rw [hlast]
      · rw [List.map_append, List.map_dropLast]
        simp
  -- end

theorem c2_sum_loss_last_witness :
    ((cfgLoss.sum_loss = true) ∧
      ((rmtCall { cfgLoss with sum_loss := false } modelEcho embTok rowsLoss
          none).toOption.map (fun p => p.1.isEmpty) = some false)) ∧
    (∃ (outs0 : List (ModelOutput Int)) (evs0 : List (StepEvent Int))
      (lastOut : ModelOutput Int),
      rmtCall { cfgLoss with sum_loss := false } modelEcho embTok rowsLoss none
        = .ok (outs0, evs0) ∧
      outs0.getLast? = some lastOut ∧
      rmtCall cfgLoss modelEcho embTok rowsLoss none =
        .ok (outs0.dropLast ++
          [{ lastOut with
              loss := (outs0.map (fun o : ModelOutput Int => o.loss)).sum }], evs0) ∧
      (outs0.dropLast ++
          [{ lastOut with
              loss := (outs0.map (fun o : ModelOutput Int => o.loss)).sum }]).map
        (fun o : ModelOutput Int => o.loss)
        = (outs0.map (fun o : ModelOutput Int => o.loss)).dropLast ++
          [(outs0.map (fun o : ModelOutput Int => o.loss)).sum]) :=
  ⟨⟨by decide, by decide⟩,
    c2_sum_loss_last cfgLoss modelEcho embTok rowsLoss none (by decide) (by decide)⟩

/-- C5: the memory entering the first segment is the word-embedding lookup of
the `M` reserved memory ids, broadcast per example (and, the call being a
pure function of its inputs, it is re-created this way at every call); and
for every executed step `i`, the memory entering step `i+1` for an example
`e` that was not empty-skipped at `i` is exactly the first `num_mem_tokens`
rows of the final hidden layer that step `i`'s model output holds for `e`
(at `e`'s position `maskRank` in the filtered batch). -/
theorem c5_memory_propagation {V : Type} (cfg : RMTConfig) (model : ModelFn V)
    (wordEmb : Nat → V) (ids : List (List Nat)) (labels : Option (List Int))
    (hmodel : ∀ a b c d, ((model a b c d).hidden).length = a.length) :
    ∀ (outs : List (ModelOutput V)) (evs : List (StepEvent V)),
      rmtCall cfg model wordEmb ids labels = .ok (outs, evs) →
      ((∀ t, evs.head? = some t →
        t.memEntering = List.replicate ids.length ((memTokenIds cfg).map wordEmb)) ∧
      (∀ i t t' out, evs[i]? = some t → evs[i+1]? = some t' →
        t.modelOut = some out →
        ∀ e, t.mask[e]? = some true →
          t'.memEntering[e]? =
            (out.hidden[maskRank t.mask e]?).map
              (fun h => h.take cfg.num_mem_tokens))) := by
  intro outs evs hrun
  obtain ⟨outs0, fm, hloop, _, _, _⟩ :=
    rmtCall_inv cfg model wordEmb ids labels outs evs hrun
  have hsegs : ∀ s ∈ zipSeg (padAndSegment cfg ids).1 (padAndSegment cfg ids).2.1
      (padAndSegment cfg ids).2.2, s.1.length = ids.length := by
    intro s hs
    exact padAndSegment_batch cfg ids s.1 (zipSeg_mem_fst _ _ _ s hs)
  obtain ⟨hlen, hhead, houts, hchain, hidx⟩ :=
    rmtLoop_events cfg model wordEmb labels ids.length hmodel _ 0 _ outs0 evs fm
      hsegs (by simp) hloop
  refine ⟨hhead, ?_⟩
  intro i t t' out ht ht' hout e he
  have hnext := hchain i t t' ht ht'
  obtain ⟨hta, htb, _, hthid, htdrop, htnodrop⟩ := hidx i t ht
  by_cases hd : cfg.drop_empty_segments = true
  · have hmemeq : nextMem cfg t = scatterUpdate t.mask t.memEntering
        (out.hidden.map (fun h => h.take cfg.num_mem_tokens)) := by
      unfold nextMem
      rw [hout]
      simp [hd]
    rw [hnext, hmemeq,
      scatterUpdate_getElem_true t.mask t.memEntering _ e he (by rw [hta, htb])
        (by rw [List.length_map, hthid out hout]; simp [hd]),
      List.getElem?_map]
  · have hd' : cfg.drop_empty_segments = false := by simpa using hd
    have hmemeq : nextMem cfg t
        = out.hidden.map (fun h => h.take cfg.num_mem_tokens) := by
      unfold nextMem
      rw [hout]
      simp [hd']
    have hmask := (htnodrop hd').1
    have heB : e < ids.length := by
      obtain ⟨hlt, _⟩ := List.getElem?_eq_some.mp he
      rw [htb] at hlt
      exact hlt
    rw [hnext, hmemeq, hmask, maskRank_replicate_true ids.length e heB,
      List.getElem?_map]

theorem c5_memory_propagation_witness :
    (∀ a b c d, ((modelEcho a b c d).hidden).length = a.length) ∧
    (∀ (outs : List (ModelOutput Int)) (evs : List (StepEvent Int)),
      rmtCall cfgDrop modelEcho embTok rowsMixed (some [7, 8]) = .ok (outs, evs) →
      ((∀ t, evs.head? = some t →
        t.memEntering
          = List.replicate rowsMixed.length ((memTokenIds cfgDrop).map embTok)) ∧
      (∀ i t t' out, evs[i]? = some t → evs[i+1]? = some t' →
        t.modelOut = some out →
        ∀ e, t.mask[e]? = some true →
          t'.memEntering[e]? =
            (out.hidden[maskRank t.mask e]?).map
              (fun h => h.take cfgDrop.num_mem_tokens)))) :=
  ⟨fun a _ _ _ => rfl,
    c5_memory_propagation cfgDrop modelEcho embTok rowsMixed (some [7, 8])
      (fun a _ _ _ => rfl)⟩

/-- C6: with empty-dropping on, every step's non-empty mask is literally the
comparison of that step's segment rows against the canonical empty sentinel;
an example whose row IS the sentinel (mask `false`) keeps its memory row
unchanged into the next step; a step whose whole batch is empty invokes no
model (`modelOut = none`) and appends no output (outputs are exactly the
executed steps' outputs, in order); and if every step is whole-batch-empty
the call returns zero outputs. -/
theorem c6_empty_skip {V : Type} (cfg : RMTConfig) (model : ModelFn V)
    (wordEmb : Nat → V) (ids : List (List Nat)) (labels : Option (List Int))
    (hdrop : cfg.drop_empty_segments = true)
    (hmodel : ∀ a b c d, ((model a b c d).hidden).length = a.length) :
    ∀ (outs : List (ModelOutput V)) (evs : List (StepEvent V)),
      rmtCall cfg model wordEmb ids labels = .ok (outs, evs) →
      ((∀ (i : Nat) (t : StepEvent V), evs[i]? = some t →
        ∃ s : List (List Nat) × List (List Nat) × List (List Nat),
          (zipSeg (padAndSegment cfg ids).1 (padAndSegment cfg ids).2.1
            (padAndSegment cfg ids).2.2)[i]? = some s ∧
          t.mask = s.1.map (fun row => !(decide (row = emptySeg cfg)))) ∧
      (∀ (i : Nat) (t t' : StepEvent V), evs[i]? = some t → evs[i+1]? = some t' →
        ∀ (e : Nat), t.mask[e]? = some false →
          t'.memEntering[e]? = t.memEntering[e]?) ∧
      (∀ (i : Nat) (t : StepEvent V), evs[i]? = some t →
        (t.mask.count true = 0 ↔ t.modelOut = none)) ∧
      outs.length = (evs.filterMap (fun t => t.modelOut)).length ∧
      ((∀ t ∈ evs, t.mask.count true = 0) → outs = [])) := by
  intro outs evs hrun
  obtain ⟨outs0, fm, hloop, hlen0, _, hnil⟩ :=
    rmtCall_inv cfg model wordEmb ids labels outs evs hrun
  have hsegs : ∀ s ∈ zipSeg (padAndSegment cfg ids).1 (padAndSegment cfg ids).2.1
      (padAndSegment cfg ids).2.2, s.1.length = ids.length := by
    intro s hs
    exact padAndSegment_batch cfg ids s.1 (zipSeg_mem_fst _ _ _ s hs)
  obtain ⟨hlen, hhead, houts, hchain, hidx⟩ :=
    rmtLoop_events cfg model wordEmb labels ids.length hmodel _ 0 _ outs0 evs fm
      hsegs (by simp) hloop
  refine ⟨?_, ?_, ?_, ?_, ?_⟩
  · intro i t ht
    exact ((hidx i t ht).2.2.2.2.1 hdrop).1
  · intro i t t' ht ht' e he
    have hnext := hchain i t t' ht ht'
    cases hmo : t.modelOut with
    | none =>
      have hmemeq : nextMem cfg t = t.memEntering := by
        unfold nextMem
        rw [hmo]
      rw [hnext, hmemeq]
    | some out =>
      have hmemeq : nextMem cfg t = scatterUpdate t.mask t.memEntering
          (out.hidden.map (fun h => h.take cfg.num_mem_tokens)) := by
        unfold nextMem
        rw [hmo]
        simp [hdrop]
      rw [hnext, hmemeq]
      exact scatterUpdate_getElem_false t.mask t.memEntering _ e he
  · intro i t ht
    exact ((hidx i t ht).2.2.2.2.1 hdrop).2.1
  · rw [hlen0, houts]
  · intro hall
    apply hnil
    rw [houts]
    rw [List.filterMap_eq_nil_iff]
    intro t ht
    obtain ⟨j, hj⟩ := List.getElem?_of_mem ht
    exact (((hidx j t hj).2.2.2.2.1 hdrop).2.1).mp (hall t ht)

theorem c6_empty_skip_witness :
    ((cfgDrop.drop_empty_segments = true) ∧
      (∀ a b c d, ((modelEcho a b c d).hidden).length = a.length)) ∧
    (∀ (outs : List (ModelOutput Int)) (evs : List (StepEvent Int)),
      rmtCall cfgDrop modelEcho embTok rowsAllPad (some [5]) = .ok (outs, evs) →
      ((∀ (i : Nat) (t : StepEvent Int), evs[i]? = some t →
        ∃ s : List (List Nat) × List (List Nat) × List (List Nat),
          (zipSeg (padAndSegment cfgDrop rowsAllPad).1
            (padAndSegment cfgDrop rowsAllPad).2.1
            (padAndSegment cfgDrop rowsAllPad).2.2)[i]? = some s ∧
          t.mask = s.1.map (fun row => !(decide (row = emptySeg cfgDrop)))) ∧
      (∀ (i : Nat) (t t' : StepEvent Int), evs[i]? = some t → evs[i+1]? = some t' →
        ∀ (e : Nat), t.mask[e]? = some false →
          t'.memEntering[e]? = t.memEntering[e]?) ∧
      (∀ (i : Nat) (t : StepEvent Int), evs[i]? = some t →
        (t.mask.count true = 0 ↔ t.modelOut = none)) ∧
      outs.length = (evs.filterMap (fun t => t.modelOut)).length ∧
      ((∀ t ∈ evs, t.mask.count true = 0) → outs = []))) :=
  ⟨⟨by decide, fun a _ _ _ => rfl⟩,
    c6_empty_skip cfgDrop modelEcho embTok rowsAllPad (some [5]) (by decide)
      (fun a _ _ _ => rfl)⟩

/-- C7: with empty-dropping on, a call without a `labels` keyword fails with
`KeyError` as soon as one segment step is not fully skipped (rather than
silently proceeding); and on a successful call, every executed step passed
the model exactly the caller's labels filtered by that step's non-empty
mask. -/
theorem c7_labels_required {V : Type} (cfg : RMTConfig) (model : ModelFn V)
    (wordEmb : Nat → V) (ids : List (List Nat))
    (hdrop : cfg.drop_empty_segments = true) :
    ((∃ s ∈ zipSeg (padAndSegment cfg ids).1 (padAndSegment cfg ids).2.1
        (padAndSegment cfg ids).2.2,
        (s.1.map (fun row => !(decide (row = emptySeg cfg)))).count true ≠ 0) →
      rmtCall cfg model wordEmb ids none = .error "KeyError: labels") ∧
    (∀ (l : List Int),
      (∀ a b c d, ((model a b c d).hidden).length = a.length) →
      ∀ (outs : List (ModelOutput V)) (evs : List (StepEvent V)),
        rmtCall cfg model wordEmb ids (some l) = .ok (outs, evs) →
        ∀ (i : Nat) (t : StepEvent V), evs[i]? = some t →
          ∀ (out : ModelOutput V), t.modelOut = some out →
            t.labelsPassed = some (some (applyMask t.mask l))) := by
  constructor
  · intro hex
    simp only [rmtCall]
    rw [rmtLoop_keyerror cfg model wordEmb hdrop _ 0 _ hex]
    rfl
  · intro l hmodel outs evs hrun i t ht out hout
    obtain ⟨outs0, fm, hloop, _, _, _⟩ :=
      rmtCall_inv cfg model wordEmb ids (some l) outs evs hrun
    have hsegs : ∀ s ∈ zipSeg (padAndSegment cfg ids).1 (padAndSegment cfg ids).2.1
        (padAndSegment cfg ids).2.2, s.1.length = ids.length := by
      intro s hs
      exact padAndSegment_batch cfg ids s.1 (zipSeg_mem_fst _ _ _ s hs)
    obtain ⟨_, _, _, _, hidx⟩ :=
      rmtLoop_events cfg model wordEmb (some l) ids.length hmodel _ 0 _ outs0 evs fm
        hsegs (by simp) hloop
    obtain ⟨l', hl', hpass⟩ := ((hidx i t ht).2.2.2.2.1 hdrop).2.2 out hout
    have : l' = l := by
      injection hl' with h
      exact h.symm
    rw [hpass, this]

theorem c7_labels_required_witness :
    (cfgDrop.drop_empty_segments = true) ∧
    (((∃ s ∈ zipSeg (padAndSegment cfgDrop rowsMixed).1
        (padAndSegment cfgDrop rowsMixed).2.1
        (padAndSegment cfgDrop rowsMixed).2.2,
        (s.1.map (fun row => !(decide (row = emptySeg cfgDrop)))).count true ≠ 0) →
      rmtCall cfgDrop modelEcho embTok rowsMixed none = .error "KeyError: labels") ∧
    (∀ (l : List Int),
      (∀ a b c d, ((modelEcho a b c d).hidden).length = a.length) →
      ∀ (outs : List (ModelOutput Int)) (evs : List (StepEvent Int)),
        rmtCall cfgDrop modelEcho embTok rowsMixed (some l) = .ok (outs, evs) →
        ∀ (i : Nat) (t : StepEvent Int), evs[i]? = some t →
          ∀ (out : ModelOutput Int), t.modelOut = some out →
            t.labelsPassed = some (some (applyMask t.mask l)))) :=
  ⟨by decide, c7_labels_required cfgDrop modelEcho embTok rowsMixed (by decide)⟩

end RMT
